import Mathlib

/-!
Shallow embedding of the transaction-ledger and inventory-reconciliation core
of the inventory tracking application (src/types.ts, src/unnamed/part_000,
src/components/InventoryForm.tsx).

JavaScript objects used as string-keyed maps are embedded as association
lists `List (String × α)`: property read is first-match lookup, property
write updates the first matching key in place or appends a new key at the
end, matching JS insertion-order semantics for object keys.
`crypto.randomUUID()` is modelled as a counter threaded through the
application state, which preserves the only property the code relies on
(freshness of record ids).  JS numbers holding quantities are embedded as
`Int` (the spec constrains them to integers; float inputs are outside the
embedding).
-/

namespace Josiah

/-- Transaction direction, `type ∈ {'in','out'}` in src/types.ts.
(`in` is a keyword, so the constructors are `tin`/`tout`.) -/
inductive TType where
  | tin
  | tout
deriving DecidableEq, Repr

/-- One cell of the transaction matrix: `{ in: number, out: number }`
(fields renamed `inQ`/`outQ` because `in` is a keyword). -/
structure Cell where
  inQ : Int
  outQ : Int
deriving DecidableEq, Repr

/-- `TransactionMatrix` from src/types.ts:
`Map<ItemId, Map<DeptId, {in, out}>>`, as an insertion-ordered
association list of association lists. -/
abbrev TransactionMatrix := List (String × List (String × Cell))

/-- `InventoryItem` from src/types.ts (fields the ledger core reads or
writes; `minStock`, `location` and the date fields are never touched by
the commit/reversal/replay code). -/
structure InventoryItem where
  id : String
  name : String
  image : String
  unit : String
  quantity : Int
  lastUpdated : String
deriving DecidableEq, Repr

/-- `Department` from src/types.ts. -/
structure Department where
  id : String
  name : String
deriving DecidableEq, Repr

/-- `TransactionRecord` from src/types.ts; `id` is the modelled UUID. -/
structure TransactionRecord where
  id : Nat
  date : String
  itemId : String
  itemName : String
  itemImage : String
  departmentId : String
  departmentName : String
  ty : TType
  quantity : Int
  timestamp : String
deriving DecidableEq, Repr

/-- The App-level state of src/unnamed/part_000: the `items`,
`departments` and `history` React state, plus the UUID counter. -/
structure AppState where
  items : List InventoryItem
  departments : List Department
  history : List TransactionRecord
  nextId : Nat
deriving DecidableEq, Repr

/-! ### Association-list helpers (JS object semantics) -/

/-- `m[k]` — first-match lookup. -/
def lookupKey {α : Type} : List (String × α) → String → Option α
  | [], _ => none
  | (k, v) :: rest, key => if k = key then some v else lookupKey rest key

/-- `m[k] = v` — update the first matching key in place, else append. -/
def insertKey {α : Type} : List (String × α) → String → α → List (String × α)
  | [], key, v => [(key, v)]
  | (k, w) :: rest, key, v =>
      if k = key then (k, v) :: rest else (k, w) :: insertKey rest key v

/-- `delete m[k]` — remove the first matching key. -/
def eraseKey {α : Type} : List (String × α) → String → List (String × α)
  | [], _ => []
  | (k, w) :: rest, key =>
      if k = key then rest else (k, w) :: eraseKey rest key

/-- Replace the first item whose `id` matches (models
`newItems[newItems.findIndex(i => i.id === itemId)] = {...}`). -/
def updateFirstById : List InventoryItem → String → (InventoryItem → InventoryItem) →
    List InventoryItem
  | [], _, _ => []
  | it :: rest, itemId, f =>
      if it.id = itemId then f it :: rest else it :: updateFirstById rest itemId f

/-- Quantity of the first catalog item with the given id (0 if absent);
reads the same element that `findIndex`-based updates write. -/
def quantityOf (items : List InventoryItem) (itemId : String) : Int :=
  match items.find? (fun i => i.id = itemId) with
  | some it => it.quantity
  | none => 0

/-! ### Commit Processor — `handleUpdateInventory` (src/unnamed/part_000, lines 559-620) -/

/-- Build one ledger record (shared commit `timestamp`, fresh id). -/
def mkRecord (nid : Nat) (date timestamp itemId itemName itemImage deptId deptName : String)
    (ty : TType) (qty : Int) : TransactionRecord :=
  { id := nid, date := date, timestamp := timestamp, itemId := itemId,
    itemName := itemName, itemImage := itemImage, departmentId := deptId,
    departmentName := deptName, ty := ty, quantity := qty }

/-- One iteration of the inner `Object.entries(deptTrans).forEach` loop:
accumulates `netChange += inQty - outQty` and pushes an `in` record when
`inQty > 0` and an `out` record when `outQty > 0`. -/
def entryLoopStep (departments : List Department)
    (date timestamp itemId itemName itemImage : String)
    (acc : Int × List TransactionRecord × Nat) (dc : String × Cell) :
    Int × List TransactionRecord × Nat :=
  let nc : Int := acc.1
  let recs : List TransactionRecord := acc.2.1
  let nid : Nat := acc.2.2
  let deptId := dc.1
  let cell := dc.2
  let deptName := match departments.find? (fun d => d.id = deptId) with
    | some d => d.name
    | none => "Unknown Dept"
  let nc : Int := nc + (cell.inQ - cell.outQ)
  let recs2 : List TransactionRecord :=
    if cell.inQ > 0 then
      recs ++ [mkRecord nid date timestamp itemId itemName itemImage deptId deptName
        TType.tin cell.inQ]
    else recs
  let nid2 : Nat := if cell.inQ > 0 then nid + 1 else nid
  let recs3 : List TransactionRecord :=
    if cell.outQ > 0 then
      recs2 ++ [mkRecord nid2 date timestamp itemId itemName itemImage deptId deptName
        TType.tout cell.outQ]
    else recs2
  let nid3 : Nat := if cell.outQ > 0 then nid2 + 1 else nid2
  (nc, recs3, nid3)

/-- The inner loop over an item's department entries. -/
def entryLoop (departments : List Department)
    (date timestamp itemId itemName itemImage : String)
    (deptTrans : List (String × Cell)) (nid0 : Nat) :
    Int × List TransactionRecord × Nat :=
  deptTrans.foldl (entryLoopStep departments date timestamp itemId itemName itemImage)
    ((0 : Int), ([] : List TransactionRecord), nid0)

/-- One step of the outer `Object.entries(matrix).forEach` loop: if
`findIndex` misses (`itemIndex = -1`) the entry is skipped; otherwise
records are appended and the item's quantity is bumped once by the
accumulated `netChange`, stamping `lastUpdated`. -/
def commitStep (departments : List Department) (date timestamp : String)
    (acc : List InventoryItem × List TransactionRecord × Nat)
    (entry : String × List (String × Cell)) :
    List InventoryItem × List TransactionRecord × Nat :=
  match acc.1.find? (fun i => i.id = entry.1) with
  | none => acc
  | some item =>
      let r := entryLoop departments date timestamp entry.1 item.name item.image entry.2 acc.2.2
      (updateFirstById acc.1 entry.1
        (fun it => { it with quantity := it.quantity + r.1, lastUpdated := timestamp }),
       acc.2.1 ++ r.2.1, r.2.2)

/-- `handleUpdateInventory(matrix, date)` — the Commit Processor.  Walks
the draft matrix, mutates item quantities by net effect, and prepends the
batch of new records to the history (`[...newHistoryRecords, ...prev]`). -/
def handleUpdateInventory (st : AppState) (matrix : TransactionMatrix)
    (date timestamp : String) : AppState :=
  let r := matrix.foldl (commitStep st.departments date timestamp) (st.items, [], st.nextId)
  { st with items := r.1, history := r.2.1 ++ st.history, nextId := r.2.2 }

/-- A sequence of commits: each element is (matrix, date, timestamp). -/
def applyCommits (st : AppState) (cs : List (TransactionMatrix × String × String)) : AppState :=
  cs.foldl (fun s c => handleUpdateInventory s c.1 c.2.1 c.2.2) st

/-! ### Reversal Processor — `handleDeleteHistoryRecord` (src/unnamed/part_000, lines 622-644) -/

/-- `handleDeleteHistoryRecord(recordId)`; the `confirm(...)` answer is the
`shouldRevert` argument.  Removes the record by id filter; when reverting,
maps over the catalog adding `-quantity` for an 'in' record and
`+quantity` for an 'out' record to the matching item. -/
def handleDeleteHistoryRecord (st : AppState) (recordId : Nat) (shouldRevert : Bool) :
    AppState :=
  match st.history.find? (fun r => r.id = recordId) with
  | none => st
  | some record =>
      let st := { st with history := st.history.filter (fun r => ¬ r.id = recordId) }
      if shouldRevert then
        { st with items := st.items.map (fun item =>
            if item.id = record.itemId then
              let reversal := if record.ty = TType.tin then -record.quantity else record.quantity
              { item with quantity := item.quantity + reversal }
            else item) }
      else st

/-! ### Reconciliation Engine — `TransactionTable` component
(src/components/InventoryForm.tsx, lines 235-456) -/

/-- One step of the `historyForDate.forEach` fold of
`reconstructHistoryForDate`: ensure the nested keys exist (with
`{in:0, out:0}` default) and add the record's quantity to the matching
direction. -/
def replayStep (m : TransactionMatrix) (h : TransactionRecord) : TransactionMatrix :=
  let inner := (lookupKey m h.itemId).getD []
  let cell := (lookupKey inner h.departmentId).getD { inQ := 0, outQ := 0 }
  let cell' :=
    match h.ty with
    | TType.tin => { cell with inQ := cell.inQ + h.quantity }
    | TType.tout => { cell with outQ := cell.outQ + h.quantity }
  insertKey m h.itemId (insertKey inner h.departmentId cell')

/-- The matrix computed by `reconstructHistoryForDate(targetDate)`:
filter the history to records of that date and fold them. -/
def replayMatrix (history : List TransactionRecord) (targetDate : String) :
    TransactionMatrix :=
  (history.filter (fun h => h.date = targetDate)).foldl replayStep []

/-- `Set.add` in insertion order: append if not already present. -/
def addUnique (acc : List String) (x : String) : List String :=
  if x ∈ acc then acc else acc ++ [x]

/-- Deduplicate keeping first occurrences (`Array.from(new Set(l))`). -/
def dedupKeep (l : List String) : List String :=
  l.foldl addUnique []

/-- The item-id list returned by `reconstructHistoryForDate(targetDate)`
(`Array.from(historyItemIds)`, a `Set` filled in record order). -/
def replayItemIds (history : List TransactionRecord) (targetDate : String) :
    List String :=
  dedupKeep ((history.filter (fun h => h.date = targetDate)).map (fun h => h.itemId))

/-- Cell read with the absent-means-`{in:0, out:0}` rule. -/
def getCell (m : TransactionMatrix) (itemId deptId : String) : Cell :=
  (lookupKey ((lookupKey m itemId).getD []) deptId).getD { inQ := 0, outQ := 0 }

/-- State of the inline "Add Transaction" form for one item row
(`activeRows[itemId]`); `qty` is the raw text field. -/
structure RowState where
  deptId : String
  ty : TType
  qty : String
deriving DecidableEq, Repr

/-- A per-date draft snapshot (`drafts[date]`). -/
structure DraftSnapshot where
  selectedItemIds : List String
  newTransactions : TransactionMatrix
  activeRows : List (String × RowState)
deriving DecidableEq, Repr

/-- The `TransactionTable` component state. -/
structure TState where
  selectedItemIds : List String
  committedTransactions : TransactionMatrix
  newTransactions : TransactionMatrix
  drafts : List (String × DraftSnapshot)
  activeRows : List (String × RowState)
  date : String
deriving DecidableEq, Repr

/-- `reconstructHistoryForDate` as the component-state update it performs
(`setCommittedTransactions(matrix)`), paired with the returned item ids. -/
def reconstructHistoryForDate (history : List TransactionRecord) (s : TState)
    (targetDate : String) : TState × List String :=
  ({ s with committedTransactions := replayMatrix history targetDate },
   replayItemIds history targetDate)

/-- `switchDate(newDate)` (InventoryForm.tsx lines 285-320): snapshot the
outgoing date's draft, switch, replay committed history for the incoming
date, then overlay the incoming date's saved draft if one exists.  The
draft lookup reads the `drafts` value captured before the snapshot write,
as the closure in the source does. -/
def switchDate (history : List TransactionRecord) (s : TState) (newDate : String) :
    TState :=
  let drafts' := insertKey s.drafts s.date
    { selectedItemIds := s.selectedItemIds,
      newTransactions := s.newTransactions,
      activeRows := s.activeRows }
  let s1 := { s with drafts := drafts', date := newDate }
  let r := reconstructHistoryForDate history s1 newDate
  let s2 := r.1
  let historyItems := r.2
  match lookupKey s.drafts newDate with
  | some draft =>
      { s2 with
        selectedItemIds := dedupKeep (historyItems ++ draft.selectedItemIds),
        newTransactions := draft.newTransactions,
        activeRows := draft.activeRows }
  | none =>
      { s2 with
        selectedItemIds := historyItems,
        newTransactions := [],
        activeRows := [] }

/-- `startAddingTransaction(itemId)`: open the inline form with the first
department preselected, type 'out', empty quantity text. -/
def startAddingTransaction (departments : List Department) (s : TState)
    (itemId : String) : TState :=
  let row : RowState :=
    { deptId := (match departments.head? with | some d => d.id | none => ""),
      ty := TType.tout, qty := "" }
  { s with activeRows := insertKey s.activeRows itemId row }

/-- `cancelAddingTransaction(itemId)`: close the inline form. -/
def cancelAddingTransaction (s : TState) (itemId : String) : TState :=
  { s with activeRows := eraseKey s.activeRows itemId }

/-- `saveTransaction(itemId)` (InventoryForm.tsx lines 345-371): validate
the inline form (`parseInt` modelled as full-string integer parsing), add
the quantity to the draft cell's chosen direction, close the form. -/
def saveTransaction (s : TState) (itemId : String) : TState :=
  match lookupKey s.activeRows itemId with
  | none => s
  | some formState =>
      if formState.deptId = "" ∨ formState.qty = "" then s
      else
        match formState.qty.toInt? with
        | none => s
        | some qtyNum =>
            if qtyNum ≤ 0 then s
            else
              let itemTrans := (lookupKey s.newTransactions itemId).getD []
              let deptTrans := (lookupKey itemTrans formState.deptId).getD
                { inQ := 0, outQ := 0 }
              let deptTrans' :=
                match formState.ty with
                | TType.tin => { deptTrans with inQ := deptTrans.inQ + qtyNum }
                | TType.tout => { deptTrans with outQ := deptTrans.outQ + qtyNum }
              let s2 := { s with newTransactions :=
                (insertKey s.newTransactions itemId
                  (insertKey itemTrans formState.deptId deptTrans')) }
              cancelAddingTransaction s2 itemId

/-- `removeDraftTransaction(itemId, deptId, type)` (InventoryForm.tsx
lines 397-412): zero the chosen direction, drop the cell when both
directions are zero, then write the (possibly empty) per-item map back. -/
def removeDraftTransaction (s : TState) (itemId deptId : String) (ty : TType) :
    TState :=
  let newItemTrans := (lookupKey s.newTransactions itemId).getD []
  let newItemTrans' :=
    match lookupKey newItemTrans deptId with
    | none => newItemTrans
    | some cell =>
        let cell' :=
          match ty with
          | TType.tin => { cell with inQ := 0 }
          | TType.tout => { cell with outQ := 0 }
        if cell'.inQ = 0 ∧ cell'.outQ = 0 then eraseKey newItemTrans deptId
        else insertKey newItemTrans deptId cell'
  { s with newTransactions := insertKey s.newTransactions itemId newItemTrans' }

/-- The whole client session: App-level state plus the transaction-table
component state (`history` lives in the App and reaches the table as a
read-only prop). -/
structure SessionState where
  app : AppState
  table : TState
deriving DecidableEq, Repr

/-- The staging commands of the UI surface that edit the draft matrix or
its inline form; none of them calls back into the App state. -/
inductive StageOp where
  | start (itemId : String)
  | cancel (itemId : String)
  | save (itemId : String)
  | remove (itemId deptId : String) (ty : TType)
deriving DecidableEq, Repr

/-- Execute one staging command on the session. -/
def applyStageOp (s : SessionState) (op : StageOp) : SessionState :=
  match op with
  | StageOp.start itemId =>
      { s with table := startAddingTransaction s.app.departments s.table itemId }
  | StageOp.cancel itemId =>
      { s with table := cancelAddingTransaction s.table itemId }
  | StageOp.save itemId =>
      { s with table := saveTransaction s.table itemId }
  | StageOp.remove itemId deptId ty =>
      { s with table := removeDraftTransaction s.table itemId deptId ty }

/-- Execute a sequence of staging commands. -/
def applyStageOps (s : SessionState) (ops : List StageOp) : SessionState :=
  ops.foldl applyStageOp s

/-! ### Backup/Restore — `handleFileChange` (src/unnamed/part_000, lines 703-729) -/

/-- A parsed JSON value as JavaScript sees it (`undef` models a missing
property read). -/
inductive JSValue where
  | undef
  | jnull
  | jbool (b : Bool)
  | jnum (n : Int)
  | jstr (s : String)
  | jarr (xs : List JSValue)
  | jobj (fields : List (String × JSValue))

/-- JavaScript truthiness (`NaN` is outside the integer embedding). -/
def truthy : JSValue → Bool
  | JSValue.undef => false
  | JSValue.jnull => false
  | JSValue.jbool b => b
  | JSValue.jnum n => decide (n ≠ 0)
  | JSValue.jstr s => decide (s ≠ "")
  | JSValue.jarr _ => true
  | JSValue.jobj _ => true

/-- `json.prop`: property read, `undefined` when absent or the value is
not an object. -/
def propGet (v : JSValue) (key : String) : JSValue :=
  match v with
  | JSValue.jobj fields => (lookupKey fields key).getD JSValue.undef
  | _ => JSValue.undef

/-- Whether a JSON value is array-shaped (what the claim's
`InvalidBackupFormat` rule would test). -/
def isArrayShaped : JSValue → Bool
  | JSValue.jarr _ => true
  | _ => false

/-- The three collections the restore path overwrites, as the raw JSON
values the source assigns (`setItems(json.items)` performs no shape
conversion). -/
structure RestoreState where
  items : JSValue
  departments : JSValue
  history : JSValue

/-- `handleFileChange` after a successful `JSON.parse`: accept when
`json && json.items && json.departments` are truthy, ask for
confirmation, then replace all three collections
(`setHistory(json.history || [])`); otherwise alert and change nothing. -/
def handleRestore (st : RestoreState) (json : JSValue) (confirmed : Bool) :
    RestoreState :=
  if truthy json ∧ truthy (propGet json "items") ∧ truthy (propGet json "departments") then
    if confirmed then
      { items := propGet json "items",
        departments := propGet json "departments",
        history := if truthy (propGet json "history") then propGet json "history"
                   else JSValue.jarr [] }
    else st
  else st

/-! ### Specification-side derived definitions (used to state properties) -/

/-- The component of a cell selected by a direction. -/
def dirQty (ty : TType) (c : Cell) : Int :=
  match ty with
  | TType.tin => c.inQ
  | TType.tout => c.outQ

/-- Add a quantity to the selected direction of a cell. -/
def bump (c : Cell) (ty : TType) (q : Int) : Cell :=
  match ty with
  | TType.tin => { c with inQ := c.inQ + q }
  | TType.tout => { c with outQ := c.outQ + q }

/-- Sum of the quantities of the ledger records for one
(item, department, direction) triple. -/
def sumDir (recs : List TransactionRecord) (itemId deptId : String) (ty : TType) : Int :=
  ((recs.filter (fun r => r.itemId == itemId && r.departmentId == deptId && r.ty == ty)).map
    (fun r => r.quantity)).sum

/-- Number of ledger records for one (item, department, direction) triple. -/
def countDir (recs : List TransactionRecord) (itemId deptId : String) (ty : TType) : Nat :=
  (recs.filter (fun r => r.itemId == itemId && r.departmentId == deptId && r.ty == ty)).length

/-- Number of department cells of one draft entry whose selected
direction is strictly positive for department `d`. -/
def innerCount (dts : List (String × Cell)) (d : String) (ty : TType) : Nat :=
  (dts.filter (fun dc => dc.1 == d && decide (0 < dirQty ty dc.2))).length

/-- Sum of the quantities of an item's `in` records. -/
def sumInFor (recs : List TransactionRecord) (itemId : String) : Int :=
  ((recs.filter (fun r => r.itemId == itemId && r.ty == TType.tin)).map
    (fun r => r.quantity)).sum

/-- Sum of the quantities of an item's `out` records. -/
def sumOutFor (recs : List TransactionRecord) (itemId : String) : Int :=
  ((recs.filter (fun r => r.itemId == itemId && r.ty == TType.tout)).map
    (fun r => r.quantity)).sum

/-- The signed quantity effect of one ledger record on its item. -/
def recordDelta (r : TransactionRecord) : Int :=
  if r.ty = TType.tin then r.quantity else -r.quantity

/-- Signed-sum of a record list's effect on one item. -/
def sumDelta (recs : List TransactionRecord) (itemId : String) : Int :=
  ((recs.filter (fun r => r.itemId == itemId)).map recordDelta).sum

/-- Net change of one draft entry's department list: `Σ(in) − Σ(out)`. -/
def netOf (dts : List (String × Cell)) : Int :=
  (dts.map (fun dc => dc.2.inQ - dc.2.outQ)).sum

/-- All cells of a draft matrix have non-negative `in` and `out` (the
data-model well-formedness of `TransactionMatrix`). -/
def cellsNN (m : TransactionMatrix) : Prop :=
  ∀ e ∈ m, ∀ dc ∈ e.2, 0 ≤ (dc.2).inQ ∧ 0 ≤ (dc.2).outQ

instance (m : TransactionMatrix) : Decidable (cellsNN m) := by
  unfold cellsNN; infer_instance

/-- A cell that may legitimately persist in the draft matrix: both
directions non-negative and not both zero. -/
def cellOK (c : Cell) : Prop :=
  0 ≤ c.inQ ∧ 0 ≤ c.outQ ∧ ¬(c.inQ = 0 ∧ c.outQ = 0)

instance (c : Cell) : Decidable (cellOK c) := by
  unfold cellOK; infer_instance

/-- Cell-level cleanliness of the whole draft matrix. -/
def cellsOK (m : TransactionMatrix) : Prop :=
  ∀ e ∈ m, ∀ dc ∈ e.2, cellOK dc.2

instance (m : TransactionMatrix) : Decidable (cellsOK m) := by
  unfold cellsOK; infer_instance

/-! ### Concrete fixtures (used by witness and counterexample theorems) -/

/-- A concrete catalog item (the spec's §8 scenario item, quantity 10). -/
def sampleItem : InventoryItem :=
  { id := "i1", name := "Widget", image := "img", unit := "pcs",
    quantity := 10, lastUpdated := "t0" }

/-- A second catalog item. -/
def sampleItem2 : InventoryItem :=
  { id := "i2", name := "Gadget", image := "img2", unit := "kg",
    quantity := 4, lastUpdated := "t0" }

/-- A concrete department. -/
def sampleDept : Department := { id := "d1", name := "Kitchen" }

/-- A second concrete department. -/
def sampleDept2 : Department := { id := "d2", name := "Office" }

/-- A concrete App state with two items, two departments, empty ledger. -/
def sampleApp : AppState :=
  { items := [sampleItem, sampleItem2],
    departments := [sampleDept, sampleDept2],
    history := [], nextId := 0 }

/-- A concrete 'in' ledger record (quantity 5 on item i1). -/
def sampleRecIn : TransactionRecord :=
  { id := 7, date := "2024-05-01", itemId := "i1", itemName := "Widget",
    itemImage := "img", departmentId := "d1", departmentName := "Kitchen",
    ty := TType.tin, quantity := 5, timestamp := "t1" }

/-- A concrete 'out' ledger record (quantity 2 on item i1). -/
def sampleRecOut : TransactionRecord :=
  { id := 8, date := "2024-05-01", itemId := "i1", itemName := "Widget",
    itemImage := "img", departmentId := "d2", departmentName := "Office",
    ty := TType.tout, quantity := 2, timestamp := "t1" }

/-- The sample App state with a two-record ledger. -/
def sampleAppH : AppState :=
  { items := [sampleItem, sampleItem2],
    departments := [sampleDept, sampleDept2],
    history := [sampleRecIn, sampleRecOut], nextId := 0 }

/-- A concrete table (component) state on date 2024-05-01 with one staged
entry in=3 for (i1, d1). -/
def sampleTable : TState :=
  { selectedItemIds := ["i1"],
    committedTransactions := [],
    newTransactions := [("i1", [("d1", { inQ := 3, outQ := 0 })])],
    drafts := [],
    activeRows := [],
    date := "2024-05-01" }

/-- A concrete full session (App + table component). -/
def sampleSession : SessionState :=
  { app := sampleAppH, table := sampleTable }

/-- A concrete restore-collections state (all three collections arrays). -/
def sampleRestore : RestoreState :=
  { items := JSValue.jarr [], departments := JSValue.jarr [],
    history := JSValue.jarr [] }

/-- A backup payload whose `items` field is truthy but not array-shaped. -/
def badBackup : JSValue :=
  JSValue.jobj [("items", JSValue.jnum 1), ("departments", JSValue.jarr [])]

/-- A well-formed backup payload with no `history` field. -/
def goodBackup : JSValue :=
  JSValue.jobj [("items", JSValue.jarr [JSValue.jstr "x"]),
    ("departments", JSValue.jarr [])]

/-! ### Helper lemmas: association lists -/

theorem lookupKey_insertKey {α : Type} (m : List (String × α)) (key key2 : String) (v : α) :
    lookupKey (insertKey m key v) key2 = if key2 = key then some v else lookupKey m key2 := by
  induction m with
  | nil =>
      rcases eq_or_ne key2 key with h | h
      · subst h; simp [insertKey, lookupKey]
      · simp [insertKey, lookupKey, h, Ne.symm h]
  | cons hd tl ih =>
      obtain ⟨k, w⟩ := hd
      rcases eq_or_ne k key with hk | hk
      · subst hk
        rcases eq_or_ne key2 k with h2 | h2
        · subst h2; simp [insertKey, lookupKey]
        · simp [insertKey, lookupKey, h2, Ne.symm h2]
      · rcases eq_or_ne k key2 with h2 | h2
        · subst h2
          simp [insertKey, lookupKey, hk, Ne.symm hk]
        · simp [insertKey, lookupKey, hk, h2, ih]

theorem lookupKey_mem {α : Type} {m : List (String × α)} {key : String} {v : α}
    (h : lookupKey m key = some v) : (key, v) ∈ m := by
  induction m with
  | nil => simp [lookupKey] at h
  | cons hd tl ih =>
      obtain ⟨k, w⟩ := hd
      by_cases hk : k = key
      · subst hk
        simp [lookupKey] at h
        simp [h]
      · simp [lookupKey, hk] at h
        exact List.mem_cons_of_mem _ (ih h)

theorem mem_insertKey {α : Type} {m : List (String × α)} {key : String} {v : α}
    {x : String × α} (h : x ∈ insertKey m key v) : x = (key, v) ∨ x ∈ m := by
  induction m with
  | nil => simpa [insertKey] using h
  | cons hd tl ih =>
      obtain ⟨k, w⟩ := hd
      by_cases hk : k = key
      · subst hk
        simp [insertKey] at h
        rcases h with h | h
        · exact Or.inl (by simp [h])
        · exact Or.inr (List.mem_cons_of_mem _ h)
      · simp [insertKey, hk] at h
        rcases h with h | h
        · exact Or.inr (by simp [h])
        · rcases ih h with h' | h'
          · exact Or.inl h'
          · exact Or.inr (List.mem_cons_of_mem _ h')

theorem mem_eraseKey {α : Type} {m : List (String × α)} {key : String}
    {x : String × α} (h : x ∈ eraseKey m key) : x ∈ m := by
  induction m with
  | nil => simp [eraseKey] at h
  | cons hd tl ih =>
      obtain ⟨k, w⟩ := hd
      by_cases hk : k = key
      · subst hk
        simp [eraseKey] at h
        exact List.mem_cons_of_mem _ h
      · simp [eraseKey, hk] at h
        rcases h with h | h
        · simp [h]
        · exact List.mem_cons_of_mem _ (ih h)

/-! ### C6 — draft isolation -/

theorem applyStageOp_app (s : SessionState) (op : StageOp) :
    (applyStageOp s op).app = s.app := by
  cases op <;> rfl

theorem applyStageOps_app (s : SessionState) (ops : List StageOp) :
    (applyStageOps s ops).app = s.app := by
  induction ops generalizing s with
  | nil => rfl
  | cons op rest ih =>
      show (applyStageOps (applyStageOp s op) rest).app = s.app
      rw [ih, applyStageOp_app]

/-- C6: staging entries into the draft matrix (opening, saving, cancelling
an inline transaction form, or removing a staged entry) never touches the
App-level ledger, so `replayCommitted` (the `reconstructHistoryForDate`
matrix) is identical before and after any sequence of staging operations,
for every date. -/
theorem C6_draft_isolation (s : SessionState) (ops : List StageOp) (d : String) :
    (applyStageOps s ops).app.history = s.app.history ∧
    replayMatrix (applyStageOps s ops).app.history d = replayMatrix s.app.history d ∧
    replayItemIds (applyStageOps s ops).app.history d = replayItemIds s.app.history d := by
  refine ⟨?_, ?_, ?_⟩ <;> rw [applyStageOps_app]

/-! ### C10 — commit silently skips unknown items -/

theorem updateFirstById_map_id (l : List InventoryItem) (itemId : String)
    (f : InventoryItem → InventoryItem) (hf : ∀ x, (f x).id = x.id) :
    (updateFirstById l itemId f).map (fun i => i.id) = l.map (fun i => i.id) := by
  induction l with
  | nil => rfl
  | cons hd tl ih =>
      by_cases h : hd.id = itemId
      · simp [updateFirstById, h, hf]
      · simp [updateFirstById, h, ih]

theorem commitStep_map_id (deps : List Department) (d t : String)
    (acc : List InventoryItem × List TransactionRecord × Nat)
    (e : String × List (String × Cell)) :
    ((commitStep deps d t acc e).1).map (fun i => i.id) = (acc.1).map (fun i => i.id) := by
  unfold commitStep
  cases hfind : acc.1.find? (fun i => i.id = e.1) with
  | none => rfl
  | some item =>
      simp only
      exact updateFirstById_map_id acc.1 e.1 _ (fun x => rfl)

theorem foldl_commitStep_map_id (deps : List Department) (d t : String)
    (m : TransactionMatrix)
    (acc : List InventoryItem × List TransactionRecord × Nat) :
    ((m.foldl (commitStep deps d t) acc).1).map (fun i => i.id)
      = (acc.1).map (fun i => i.id) := by
  induction m generalizing acc with
  | nil => rfl
  | cons e rest ih =>
      show ((rest.foldl (commitStep deps d t) (commitStep deps d t acc e)).1).map _ = _
      rw [ih, commitStep_map_id]

theorem commitStep_skip (deps : List Department) (d t : String)
    (acc : List InventoryItem × List TransactionRecord × Nat)
    (e : String × List (String × Cell))
    (h : acc.1.find? (fun i => i.id = e.1) = none) :
    commitStep deps d t acc e = acc := by
  unfold commitStep
  rw [h]

/-- C10: an entry of the draft matrix whose `itemId` matches no catalog
item (so `findIndex` returns −1) is silently dropped at commit: removing
it from the matrix leaves the commit's result unchanged, wherever the
entry sits; entries for known items around it are processed identically. -/
theorem C10_commit_skips_unknown_items (st : AppState) (k : String)
    (dts : List (String × Cell)) (pre post : TransactionMatrix)
    (date timestamp : String)
    (hk : ∀ it ∈ st.items, it.id ≠ k) :
    handleUpdateInventory st (pre ++ (k, dts) :: post) date timestamp
      = handleUpdateInventory st (pre ++ post) date timestamp := by
  unfold handleUpdateInventory
  have hfold : ∀ acc : List InventoryItem × List TransactionRecord × Nat,
      acc.1.map (fun i => i.id) = st.items.map (fun i => i.id) →
      acc.1.find? (fun i => i.id = k) = none := by
    intro acc hids
    apply List.find?_eq_none.mpr
    intro x hx
    have : x.id ∈ acc.1.map (fun i => i.id) := List.mem_map_of_mem _ hx
    rw [hids] at this
    obtain ⟨y, hy, hyx⟩ := List.mem_map.mp this
    simp only [decide_eq_true_eq]
    rw [← hyx]
    exact hk y hy
  have h1 : (pre ++ (k, dts) :: post).foldl (commitStep st.departments date timestamp)
        (st.items, [], st.nextId)
      = (pre ++ post).foldl (commitStep st.departments date timestamp)
        (st.items, [], st.nextId) := by
    rw [List.foldl_append, List.foldl_append, List.foldl_cons]
    congr 1
    apply commitStep_skip
    apply hfold
    exact foldl_commitStep_map_id _ _ _ _ _
  rw [h1]

/-- Witness for C10: an entry for the unknown id "zz" sitting after a
known-item entry changes nothing at commit. -/
theorem C10_witness :
    (∀ it ∈ sampleApp.items, it.id ≠ "zz") ∧
    handleUpdateInventory sampleApp
        ([("i1", [("d1", { inQ := 1, outQ := 0 })])]
          ++ ("zz", [("d1", { inQ := 5, outQ := 0 })]) :: [])
        "2024-05-01" "t1"
      = handleUpdateInventory sampleApp
          ([("i1", [("d1", { inQ := 1, outQ := 0 })])] ++ []) "2024-05-01" "t1" :=
  ⟨by decide,
   C10_commit_skips_unknown_items sampleApp "zz" [("d1", { inQ := 5, outQ := 0 })]
     [("i1", [("d1", { inQ := 1, outQ := 0 })])] [] "2024-05-01" "t1" (by decide)⟩

/-! ### C3 — replay characterization, idempotence, commutativity -/

theorem getCell_replayStep (m : TransactionMatrix) (h : TransactionRecord) (i d : String) :
    getCell (replayStep m h) i d =
      if h.itemId = i ∧ h.departmentId = d then bump (getCell m i d) h.ty h.quantity
      else getCell m i d := by
  rcases eq_or_ne h.itemId i with hi | hi
  · rcases eq_or_ne h.departmentId d with hd | hd
    · cases hty : h.ty <;>
        simp [replayStep, getCell, lookupKey_insertKey, bump, hty, hi, hd]
    · simp [replayStep, getCell, lookupKey_insertKey, hi, hd, Ne.symm hd]
  · simp [replayStep, getCell, lookupKey_insertKey, hi, Ne.symm hi]

theorem sumDir_cons (r : TransactionRecord) (rest : List TransactionRecord)
    (i d : String) (ty : TType) :
    sumDir (r :: rest) i d ty =
      (if r.itemId = i ∧ r.departmentId = d ∧ r.ty = ty then r.quantity else 0)
        + sumDir rest i d ty := by
  simp only [sumDir, List.filter_cons]
  by_cases h1 : r.itemId = i
  · by_cases h2 : r.departmentId = d
    · by_cases h3 : r.ty = ty
      · simp [h1, h2, h3]
      · simp [h1, h2, h3]
    · simp [h1, h2]
  · simp [h1]

theorem getCell_foldl_replay (l : List TransactionRecord) (m : TransactionMatrix)
    (i d : String) :
    getCell (l.foldl replayStep m) i d =
      { inQ := (getCell m i d).inQ + sumDir l i d TType.tin,
        outQ := (getCell m i d).outQ + sumDir l i d TType.tout } := by
  induction l generalizing m with
  | nil => simp [sumDir]
  | cons h rest ih =>
      rw [List.foldl_cons, ih, getCell_replayStep, sumDir_cons, sumDir_cons]
      rcases eq_or_ne h.itemId i with hi | hi
      · rcases eq_or_ne h.departmentId d with hd | hd
        · cases hty : h.ty <;>
            simp [hi, hd, hty, bump] <;> ring
        · simp [hi, hd]
      · simp [hi]

theorem getCell_replayMatrix (history : List TransactionRecord) (date i d : String) :
    getCell (replayMatrix history date) i d =
      { inQ := sumDir (history.filter (fun h => h.date = date)) i d TType.tin,
        outQ := sumDir (history.filter (fun h => h.date = date)) i d TType.tout } := by
  unfold replayMatrix
  rw [getCell_foldl_replay]
  simp [getCell, lookupKey]

theorem sumDir_perm {l l2 : List TransactionRecord} (hp : l.Perm l2)
    (i d : String) (ty : TType) : sumDir l i d ty = sumDir l2 i d ty :=
  List.Perm.sum_eq ((hp.filter _).map _)

/-- C3: `reconstructHistoryForDate` filters the ledger to the target
date and folds it, summing `in` and `out` independently per
(item, department) cell; running it twice in a row produces the same
state and item-id list; and a permutation of the ledger produces the same
matrix (pointwise on cells) and hence commit order within a date never
matters. -/
theorem C3_replay_idempotent_commutative (history history2 : List TransactionRecord)
    (targetDate : String) (s : TState) (hp : history.Perm history2) :
    (reconstructHistoryForDate history
        (reconstructHistoryForDate history s targetDate).1 targetDate)
      = reconstructHistoryForDate history s targetDate ∧
    (∀ i d, getCell (replayMatrix history targetDate) i d =
      { inQ := sumDir (history.filter (fun h => h.date = targetDate)) i d TType.tin,
        outQ := sumDir (history.filter (fun h => h.date = targetDate)) i d TType.tout }) ∧
    (∀ i d, getCell (replayMatrix history targetDate) i d
        = getCell (replayMatrix history2 targetDate) i d) := by
  refine ⟨rfl, fun i d => getCell_replayMatrix _ _ _ _, fun i d => ?_⟩
  rw [getCell_replayMatrix, getCell_replayMatrix]
  have hf : (history.filter (fun h => h.date = targetDate)).Perm
      (history2.filter (fun h => h.date = targetDate)) := hp.filter _
  rw [sumDir_perm hf, sumDir_perm hf]

/-- Witness for C3 at a concrete two-record ledger and its swap. -/
theorem C3_witness :
    ([sampleRecIn, sampleRecOut] : List TransactionRecord).Perm
        [sampleRecOut, sampleRecIn] ∧
    ((reconstructHistoryForDate [sampleRecIn, sampleRecOut]
        (reconstructHistoryForDate [sampleRecIn, sampleRecOut] sampleTable "2024-05-01").1
        "2024-05-01")
      = reconstructHistoryForDate [sampleRecIn, sampleRecOut] sampleTable "2024-05-01" ∧
    (∀ i d, getCell (replayMatrix [sampleRecIn, sampleRecOut] "2024-05-01") i d =
      { inQ := sumDir (([sampleRecIn, sampleRecOut] : List TransactionRecord).filter
          (fun h => h.date = "2024-05-01")) i d TType.tin,
        outQ := sumDir (([sampleRecIn, sampleRecOut] : List TransactionRecord).filter
          (fun h => h.date = "2024-05-01")) i d TType.tout }) ∧
    (∀ i d, getCell (replayMatrix [sampleRecIn, sampleRecOut] "2024-05-01") i d
        = getCell (replayMatrix [sampleRecOut, sampleRecIn] "2024-05-01") i d)) :=
  ⟨List.Perm.swap _ _ _,
   C3_replay_idempotent_commutative [sampleRecIn, sampleRecOut] [sampleRecOut, sampleRecIn]
     "2024-05-01" sampleTable (List.Perm.swap _ _ _)⟩

/-! ### C5 — date-switch round trip -/

/-- C5: with D1 active, switching to a different date D2 and back to D1
restores exactly the staged draft matrix and open input rows from D1, and
displays the union (first-occurrence order, duplicates removed) of the
item set replayed from D1's committed history and the item set saved in
D1's draft snapshot; the committed matrix is replayed afresh from the
ledger. -/
theorem C5_date_switch_round_trip (history : List TransactionRecord) (s : TState)
    (d1 d2 : String) (hdate : s.date = d1) (hne : d1 ≠ d2) :
    ((switchDate history (switchDate history s d2) d1).date = d1 ∧
     (switchDate history (switchDate history s d2) d1).newTransactions
        = s.newTransactions ∧
     (switchDate history (switchDate history s d2) d1).activeRows = s.activeRows ∧
     (switchDate history (switchDate history s d2) d1).selectedItemIds
        = dedupKeep (replayItemIds history d1 ++ s.selectedItemIds) ∧
     (switchDate history (switchDate history s d2) d1).committedTransactions
        = replayMatrix history d1) := by
  subst hdate
  cases hl : lookupKey s.drafts d2 with
  | none =>
      simp [switchDate, reconstructHistoryForDate, hl, lookupKey_insertKey]
  | some draft =>
      simp [switchDate, reconstructHistoryForDate, hl, lookupKey_insertKey]

/-- Witness for C5: the sample table state (active date 2024-05-01, one
staged entry), switched to 2024-05-02 and back. -/
theorem C5_witness :
    sampleTable.date = "2024-05-01" ∧ "2024-05-01" ≠ "2024-05-02" ∧
    ((switchDate [sampleRecIn, sampleRecOut]
        (switchDate [sampleRecIn, sampleRecOut] sampleTable "2024-05-02")
        "2024-05-01").date = "2024-05-01" ∧
     (switchDate [sampleRecIn, sampleRecOut]
        (switchDate [sampleRecIn, sampleRecOut] sampleTable "2024-05-02")
        "2024-05-01").newTransactions = sampleTable.newTransactions ∧
     (switchDate [sampleRecIn, sampleRecOut]
        (switchDate [sampleRecIn, sampleRecOut] sampleTable "2024-05-02")
        "2024-05-01").activeRows = sampleTable.activeRows ∧
     (switchDate [sampleRecIn, sampleRecOut]
        (switchDate [sampleRecIn, sampleRecOut] sampleTable "2024-05-02")
        "2024-05-01").selectedItemIds
        = dedupKeep (replayItemIds [sampleRecIn, sampleRecOut] "2024-05-01"
            ++ sampleTable.selectedItemIds) ∧
     (switchDate [sampleRecIn, sampleRecOut]
        (switchDate [sampleRecIn, sampleRecOut] sampleTable "2024-05-02")
        "2024-05-01").committedTransactions
        = replayMatrix [sampleRecIn, sampleRecOut] "2024-05-01") :=
  ⟨rfl, by decide,
   C5_date_switch_round_trip [sampleRecIn, sampleRecOut] sampleTable
     "2024-05-01" "2024-05-02" rfl (by decide)⟩

/-! ### C4 — reversal correctness -/

theorem find?_record_of_nodup {l : List TransactionRecord} {r : TransactionRecord}
    (hnd : (l.map (fun x => x.id)).Nodup) (hr : r ∈ l) :
    l.find? (fun x => x.id = r.id) = some r := by
  induction l with
  | nil => cases hr
  | cons hd tl ih =>
      rw [List.map_cons, List.nodup_cons] at hnd
      rcases List.mem_cons.mp hr with h | h
      · subst h
        simp [List.find?]
      · have hne : ¬ hd.id = r.id := by
          intro he
          exact hnd.1 (he ▸ List.mem_map_of_mem _ h)
        rw [List.find?_cons_of_neg _ (by simpa using hne)]
        exact ih hnd.2 h

theorem filter_eq_id_of_nodup {l : List TransactionRecord} {r : TransactionRecord}
    (hnd : (l.map (fun x => x.id)).Nodup) (hr : r ∈ l) :
    l.filter (fun x => x.id = r.id) = [r] := by
  induction l with
  | nil => cases hr
  | cons hd tl ih =>
      rw [List.map_cons, List.nodup_cons] at hnd
      rcases List.mem_cons.mp hr with h | h
      · subst h
        rw [List.filter_cons_of_pos (by simp)]
        have hnil : tl.filter (fun x => x.id = r.id) = [] := by
          apply List.filter_eq_nil_iff.mpr
          intro a ha
          simp only [decide_eq_true_eq]
          intro he
          exact hnd.1 (he ▸ List.mem_map_of_mem _ ha)
        rw [hnil]
      · have hne : ¬ hd.id = r.id := by
          intro he
          exact hnd.1 (he ▸ List.mem_map_of_mem _ h)
        rw [List.filter_cons_of_neg (by simpa using hne)]
        exact ih hnd.2 h

theorem find?_map_id_preserving (l : List InventoryItem)
    (f : InventoryItem → InventoryItem) (hf : ∀ x, (f x).id = x.id) (i : String) :
    (l.map f).find? (fun x => x.id = i) = (l.find? (fun x => x.id = i)).map f := by
  induction l with
  | nil => rfl
  | cons hd tl ih =>
      by_cases h : hd.id = i
      · rw [List.map_cons, List.find?_cons_of_pos _ (by simp [hf, h]),
          List.find?_cons_of_pos _ (by simp [h])]
        rfl
      · rw [List.map_cons, List.find?_cons_of_neg _ (by simp [hf, h]),
          List.find?_cons_of_neg _ (by simp [h])]
        exact ih

/-- C4: `deleteRecord(recordId, revert)` removes the record (and nothing
else) from the ledger whatever `revert` is; with `revert = false` the
catalog is untouched; with `revert = true` the referenced item's quantity
moves by `-quantity` for an 'in' record and `+quantity` for an 'out'
record, other items are untouched, and when the referenced item no longer
exists the whole catalog is untouched while the deletion still happens. -/
theorem C4_reversal (st : AppState) (r : TransactionRecord) (revert : Bool)
    (hr : r ∈ st.history) (hnd : (st.history.map (fun x => x.id)).Nodup) :
    (r ∉ (handleDeleteHistoryRecord st r.id revert).history ∧
     (∀ x, x ≠ r →
        (x ∈ (handleDeleteHistoryRecord st r.id revert).history ↔ x ∈ st.history)) ∧
     (handleDeleteHistoryRecord st r.id revert).history.length + 1
        = st.history.length) ∧
    (revert = false → (handleDeleteHistoryRecord st r.id revert).items = st.items) ∧
    (revert = true →
      ((∀ it ∈ st.items, it.id ≠ r.itemId) →
        (handleDeleteHistoryRecord st r.id revert).items = st.items) ∧
      quantityOf (handleDeleteHistoryRecord st r.id revert).items r.itemId
        = quantityOf st.items r.itemId
          + (if ∃ it ∈ st.items, it.id = r.itemId then
               (if r.ty = TType.tin then -r.quantity else r.quantity) else 0) ∧
      (∀ j, j ≠ r.itemId →
        quantityOf (handleDeleteHistoryRecord st r.id revert).items j
          = quantityOf st.items j)) := by
  have hfind : st.history.find? (fun x => x.id = r.id) = some r :=
    find?_record_of_nodup hnd hr
  have hhist : (handleDeleteHistoryRecord st r.id revert).history
      = st.history.filter (fun x => ¬ x.id = r.id) := by
    unfold handleDeleteHistoryRecord
    rw [hfind]
    cases revert <;> rfl
  constructor
  · refine ⟨?_, ?_, ?_⟩
    · rw [hhist]
      intro hmem
      have := (List.mem_filter.mp hmem).2
      simp at this
    · intro x hx
      rw [hhist]
      constructor
      · intro hmem
        exact (List.mem_filter.mp hmem).1
      · intro hmem
        apply List.mem_filter.mpr
        refine ⟨hmem, ?_⟩
        have hne : x.id ≠ r.id :=
          fun he => hx (List.inj_on_of_nodup_map hnd hmem hr he)
        simp [hne]
    · have hperm := List.filter_append_perm (fun x => x.id = r.id) st.history
      have hlen := hperm.length_eq
      rw [List.length_append, filter_eq_id_of_nodup hnd hr] at hlen
      rw [hhist]
      have hsame : st.history.filter (fun x => ¬ x.id = r.id)
          = st.history.filter (fun x => !(decide (x.id = r.id))) := by
        apply List.filter_congr
        intro x _
        simp
      rw [hsame]
      simp only [List.length_cons, List.length_nil] at hlen
      omega
  constructor
  · intro hrev
    subst hrev
    unfold handleDeleteHistoryRecord
    rw [hfind]
    rfl
  · intro hrev
    subst hrev
    have hitems : (handleDeleteHistoryRecord st r.id true).items
        = st.items.map (fun item =>
            if item.id = r.itemId then
              { item with quantity := item.quantity +
                  (if r.ty = TType.tin then -r.quantity else r.quantity) }
            else item) := by
      unfold handleDeleteHistoryRecord
      rw [hfind]
      rfl
    have hfpres : ∀ x : InventoryItem,
        ((fun item =>
            if item.id = r.itemId then
              { item with quantity := item.quantity +
                  (if r.ty = TType.tin then -r.quantity else r.quantity) }
            else item) x).id = x.id := by
      intro x
      by_cases h : x.id = r.itemId <;> simp [h]
    refine ⟨?_, ?_, ?_⟩
    · intro habs
      rw [hitems]
      have : ∀ a ∈ st.items,
          (if a.id = r.itemId then
              { a with quantity := a.quantity +
                  (if r.ty = TType.tin then -r.quantity else r.quantity) }
            else a) = a := by
        intro a ha
        rw [if_neg (habs a ha)]
      rw [List.map_congr_left this]
      simp
    · rw [hitems]
      unfold quantityOf
      rw [find?_map_id_preserving _ _ hfpres]
      cases hfi : st.items.find? (fun x => x.id = r.itemId) with
      | none =>
          have : ¬ ∃ it ∈ st.items, it.id = r.itemId := by
            rintro ⟨it, hit, hide⟩
            have := List.find?_eq_none.mp hfi it hit
            simp [hide] at this
          rw [if_neg this]
          simp
      | some it =>
          have hitid : it.id = r.itemId := by
            have := List.find?_some hfi
            simpa using this
          have : ∃ x ∈ st.items, x.id = r.itemId :=
            ⟨it, List.mem_of_find?_eq_some hfi, hitid⟩
          rw [if_pos this]
          simp [hitid]
    · intro j hj
      rw [hitems]
      unfold quantityOf
      rw [find?_map_id_preserving _ _ hfpres]
      cases hfi : st.items.find? (fun x => x.id = j) with
      | none => rfl
      | some it =>
          have hitid : it.id = j := by
            have := List.find?_some hfi
            simpa using this
          simp [hitid, hj]

/-- Witness for C4: the spec's reversal scenario — deleting the 'in'
record of quantity 5 on item i1 (quantity 10) with revert gives 5. -/
theorem C4_witness :
    sampleRecIn ∈ sampleAppH.history ∧
    (sampleAppH.history.map (fun x => x.id)).Nodup ∧
    ((sampleRecIn ∉
        (handleDeleteHistoryRecord sampleAppH sampleRecIn.id true).history ∧
     (∀ x, x ≠ sampleRecIn →
        (x ∈ (handleDeleteHistoryRecord sampleAppH sampleRecIn.id true).history
          ↔ x ∈ sampleAppH.history)) ∧
     (handleDeleteHistoryRecord sampleAppH sampleRecIn.id true).history.length + 1
        = sampleAppH.history.length) ∧
    (true = false →
      (handleDeleteHistoryRecord sampleAppH sampleRecIn.id true).items
        = sampleAppH.items) ∧
    (true = true →
      ((∀ it ∈ sampleAppH.items, it.id ≠ sampleRecIn.itemId) →
        (handleDeleteHistoryRecord sampleAppH sampleRecIn.id true).items
          = sampleAppH.items) ∧
      quantityOf (handleDeleteHistoryRecord sampleAppH sampleRecIn.id true).items
          sampleRecIn.itemId
        = quantityOf sampleAppH.items sampleRecIn.itemId
          + (if ∃ it ∈ sampleAppH.items, it.id = sampleRecIn.itemId then
               (if sampleRecIn.ty = TType.tin then -sampleRecIn.quantity
                else sampleRecIn.quantity) else 0) ∧
      (∀ j, j ≠ sampleRecIn.itemId →
        quantityOf (handleDeleteHistoryRecord sampleAppH sampleRecIn.id true).items j
          = quantityOf sampleAppH.items j))) :=
  ⟨by decide, by decide,
   C4_reversal sampleAppH sampleRecIn true (by decide) (by decide)⟩

/-! ### C8 — draft matrix cleanup -/

theorem getCell_nn {m : TransactionMatrix} (h : cellsOK m) (i d : String) :
    0 ≤ (getCell m i d).inQ ∧ 0 ≤ (getCell m i d).outQ := by
  unfold getCell
  cases hlk : lookupKey m i with
  | none => simp [hlk, lookupKey]
  | some v =>
      simp only [Option.getD_some]
      cases hlk2 : lookupKey v d with
      | none => simp [hlk2]
      | some c =>
          simp only [Option.getD_some]
          have hc := h (i, v) (lookupKey_mem hlk) (d, c) (lookupKey_mem hlk2)
          exact ⟨hc.1, hc.2.1⟩

theorem cellsOK_mem_inner {m : TransactionMatrix} (h : cellsOK m) (itemId : String) :
    ∀ dc ∈ (lookupKey m itemId).getD [], cellOK dc.2 := by
  cases hlk : lookupKey m itemId with
  | none => simp
  | some v =>
      intro dc hdc
      exact h (itemId, v) (lookupKey_mem hlk) dc (by simpa using hdc)

theorem cellsOK_insert_cell {m : TransactionMatrix} (h : cellsOK m)
    (itemId dept : String) {c : Cell} (hc : cellOK c) :
    cellsOK (insertKey m itemId
      (insertKey ((lookupKey m itemId).getD []) dept c)) := by
  intro e he
  rcases mem_insertKey he with he' | he'
  · cases he'
    intro dc hdc
    rcases mem_insertKey hdc with hdc' | hdc'
    · cases hdc'
      exact hc
    · exact cellsOK_mem_inner h itemId dc hdc'
  · exact h e he'

theorem cellsOK_saveTransaction (s : TState) (itemId : String)
    (h : cellsOK s.newTransactions) :
    cellsOK (saveTransaction s itemId).newTransactions := by
  unfold saveTransaction
  cases hrow : lookupKey s.activeRows itemId with
  | none => exact h
  | some fs =>
      by_cases hg : fs.deptId = "" ∨ fs.qty = ""
      · simp only [if_pos hg]
        exact h
      · simp only [if_neg hg]
        cases hparse : fs.qty.toInt? with
        | none => exact h
        | some q =>
            by_cases hq : q ≤ 0
            · simp only [if_pos hq]
              exact h
            · simp only [if_neg hq]
              show cellsOK (insertKey s.newTransactions itemId _)
              have hnn := getCell_nn h itemId fs.deptId
              unfold getCell at hnn
              apply cellsOK_insert_cell h
              unfold cellOK
              cases fs.ty with
              | tin =>
                  dsimp only
                  refine ⟨by omega, hnn.2, ?_⟩
                  rintro ⟨h1, -⟩
                  omega
              | tout =>
                  dsimp only
                  refine ⟨hnn.1, by omega, ?_⟩
                  rintro ⟨-, h2⟩
                  omega

theorem cellsOK_removeDraftTransaction (s : TState) (itemId deptId : String)
    (ty : TType) (h : cellsOK s.newTransactions) :
    cellsOK (removeDraftTransaction s itemId deptId ty).newTransactions := by
  unfold removeDraftTransaction
  intro e he
  rcases mem_insertKey he with he' | he'
  · cases he'
    intro dc hdc
    cases hlk : lookupKey ((lookupKey s.newTransactions itemId).getD []) deptId with
    | none =>
        rw [hlk] at hdc
        exact cellsOK_mem_inner h itemId dc hdc
    | some cell =>
        rw [hlk] at hdc
        have hcell : cellOK cell :=
          cellsOK_mem_inner h itemId (deptId, cell) (lookupKey_mem hlk)
        cases hty : ty with
        | tin =>
            simp only [hty] at hdc
            by_cases hz : (0 : Int) = 0 ∧ cell.outQ = 0
            · rw [if_pos (by simpa using hz)] at hdc
              exact cellsOK_mem_inner h itemId dc (mem_eraseKey hdc)
            · rw [if_neg (by simpa using hz)] at hdc
              rcases mem_insertKey hdc with hdc' | hdc'
              · cases hdc'
                refine ⟨le_refl 0, hcell.2.1, ?_⟩
                rintro ⟨-, h2⟩
                exact hz ⟨rfl, h2⟩
              · exact cellsOK_mem_inner h itemId dc hdc'
        | tout =>
            simp only [hty] at hdc
            by_cases hz : cell.inQ = 0 ∧ (0 : Int) = 0
            · rw [if_pos (by simpa using hz)] at hdc
              exact cellsOK_mem_inner h itemId dc (mem_eraseKey hdc)
            · rw [if_neg (by simpa using hz)] at hdc
              rcases mem_insertKey hdc with hdc' | hdc'
              · cases hdc'
                refine ⟨hcell.1, le_refl 0, ?_⟩
                rintro ⟨h1, -⟩
                exact hz ⟨h1, rfl⟩
              · exact cellsOK_mem_inner h itemId dc hdc'
  · exact h e he'

/-- C8 counterexample: removing the only staged entry of item i1 leaves
the emptied per-item map `"i1" ↦ {}` in the draft matrix — the cleanup
step does not remove emptied per-item maps, contradicting the claim that
no empty entries persist after a removal. -/
theorem C8_counterexample :
    (removeDraftTransaction sampleTable "i1" "d1" TType.tin).newTransactions
        = [("i1", [])] ∧
    lookupKey (removeDraftTransaction sampleTable "i1" "d1" TType.tin).newTransactions
        "i1" = some [] := by
  constructor <;> rfl

/-- C8 (amended): after any sequence of staging operations starting from
a clean draft matrix, every cell still present has non-negative entries
and is not `{in: 0, out: 0}` (cell-level cleanup holds); emptied
per-item maps, however, may persist (see the counterexample). -/
theorem C8_cell_level_cleanup (s : SessionState) (ops : List StageOp)
    (h : cellsOK s.table.newTransactions) :
    cellsOK (applyStageOps s ops).table.newTransactions := by
  induction ops generalizing s with
  | nil => exact h
  | cons op rest ih =>
      show cellsOK (applyStageOps (applyStageOp s op) rest).table.newTransactions
      apply ih
      cases op with
      | start itemId => exact h
      | cancel itemId => exact h
      | save itemId => exact cellsOK_saveTransaction _ _ h
      | remove itemId deptId ty => exact cellsOK_removeDraftTransaction _ _ _ _ h

/-- Witness for C8 at the sample session: stage on i2 then remove i1's
entry; the invariant is checked concretely. -/
theorem C8_witness :
    cellsOK sampleSession.table.newTransactions ∧
    cellsOK (applyStageOps sampleSession
      [StageOp.start "i2", StageOp.save "i2",
       StageOp.remove "i1" "d1" TType.tin]).table.newTransactions :=
  ⟨by decide,
   C8_cell_level_cleanup sampleSession
     [StageOp.start "i2", StageOp.save "i2", StageOp.remove "i1" "d1" TType.tin]
     (by decide)⟩

/-! ### C9 — restore validation and replacement -/

/-- C9 counterexample: a payload whose `items` field is the number 1 —
truthy, but not array-shaped — is accepted and replaces the collections
(`items` becomes the number 1), where the claim requires rejection with
`InvalidBackupFormat` for non-array-shaped fields. -/
theorem C9_counterexample :
    isArrayShaped (propGet badBackup "items") = false ∧
    handleRestore sampleRestore badBackup true
      = { items := JSValue.jnum 1, departments := JSValue.jarr [],
          history := JSValue.jarr [] } ∧
    sampleRestore.items = JSValue.jarr [] :=
  ⟨rfl, rfl, rfl⟩

/-- C9 (amended): the restore path accepts a payload iff the parsed value
and its `items` and `departments` fields are all truthy in the JavaScript
sense — no array-shape check is performed; on acceptance (with user
confirmation) it fully replaces all three collections with the raw field
values, `history` defaulting to an empty array when absent or falsy; on
a falsy field, or without confirmation, no collection changes. -/
theorem C9_restore_truthiness (st : RestoreState) (json : JSValue) (confirmed : Bool) :
    (truthy json = true → truthy (propGet json "items") = true →
      truthy (propGet json "departments") = true → confirmed = true →
      handleRestore st json confirmed
        = { items := propGet json "items",
            departments := propGet json "departments",
            history := if truthy (propGet json "history") then propGet json "history"
                       else JSValue.jarr [] }) ∧
    ((truthy json = false ∨ truthy (propGet json "items") = false ∨
        truthy (propGet json "departments") = false) →
      handleRestore st json confirmed = st) ∧
    (confirmed = false → handleRestore st json confirmed = st) := by
  refine ⟨?_, ?_, ?_⟩
  · intro h1 h2 h3 hc
    subst hc
    unfold handleRestore
    rw [if_pos ⟨h1, h2, h3⟩]
    rfl
  · intro hor
    unfold handleRestore
    rw [if_neg ?hneg]
    case hneg =>
      rintro ⟨h1, h2, h3⟩
      rcases hor with h | h | h <;> simp [h] at *
  · intro hc
    subst hc
    unfold handleRestore
    by_cases hacc : truthy json = true ∧ truthy (propGet json "items") = true
        ∧ truthy (propGet json "departments") = true
    · rw [if_pos hacc]
      simp
    · rw [if_neg hacc]

/-- Witness for C9 at a concrete accepted payload with no `history`
field: all three collections are replaced, history defaulting to `[]`. -/
theorem C9_witness :
    handleRestore sampleRestore goodBackup true
      = { items := propGet goodBackup "items",
          departments := propGet goodBackup "departments",
          history := if truthy (propGet goodBackup "history")
                     then propGet goodBackup "history" else JSValue.jarr [] } :=
  (C9_restore_truthiness sampleRestore goodBackup true).1 rfl rfl rfl rfl

/-! ### C7 — commit does not validate amounts -/

/-- C7 counterexample: a draft entry with the non-positive amount
`in = −3` is not rejected — the commit mutates item i1's quantity from
10 to 7 and creates no ledger record, where the claim requires the
processor to fail with `InvalidQuantity` instead of mutating. -/
theorem C7_counterexample :
    quantityOf (handleUpdateInventory sampleApp
        [("i1", [("d1", { inQ := -3, outQ := 0 })])] "2024-05-01" "t1").items "i1" = 7 ∧
    (handleUpdateInventory sampleApp
        [("i1", [("d1", { inQ := -3, outQ := 0 })])] "2024-05-01" "t1").history = [] ∧
    quantityOf sampleApp.items "i1" = 10 := by
  decide

theorem find?_updateFirstById_self (l : List InventoryItem) (i : String)
    (f : InventoryItem → InventoryItem) (hfp : ∀ x, (f x).id = x.id) :
    (updateFirstById l i f).find? (fun x => x.id = i)
      = (l.find? (fun x => x.id = i)).map f := by
  induction l with
  | nil => rfl
  | cons hd tl ih =>
      by_cases h : hd.id = i
      · rw [updateFirstById, if_pos h, List.find?_cons_of_pos _ (by simp [hfp, h]),
          List.find?_cons_of_pos _ (by simp [h])]
        rfl
      · rw [updateFirstById, if_neg h, List.find?_cons_of_neg _ (by simp [h]),
          List.find?_cons_of_neg _ (by simp [h])]
        exact ih

theorem find?_updateFirstById_ne (l : List InventoryItem) (i j : String)
    (f : InventoryItem → InventoryItem) (hfp : ∀ x, (f x).id = x.id)
    (hij : j ≠ i) :
    (updateFirstById l i f).find? (fun x => x.id = j)
      = l.find? (fun x => x.id = j) := by
  induction l with
  | nil => rfl
  | cons hd tl ih =>
      by_cases h : hd.id = i
      · have hj : ¬ hd.id = j := fun hh => hij (hh ▸ h.symm).symm
        rw [updateFirstById, if_pos h,
          List.find?_cons_of_neg _ (by simp [hfp, h]; exact fun hh => hij hh.symm),
          List.find?_cons_of_neg _ (by simpa using hj)]
      · by_cases hj : hd.id = j
        · rw [updateFirstById, if_neg h, List.find?_cons_of_pos _ (by simp [hj]),
            List.find?_cons_of_pos _ (by simp [hj])]
        · rw [updateFirstById, if_neg h, List.find?_cons_of_neg _ (by simp [hj]),
            List.find?_cons_of_neg _ (by simp [hj])]
          exact ih

/-- C7 (amended): the commit processor performs no quantity validation:
for a draft with a single (item, department) cell on a catalog item, any
amounts — including non-positive ones — are folded into the net change
applied to the item's quantity, and a ledger record is created exactly
for each strictly positive direction amount; nothing is rejected. -/
theorem C7_no_validation (st : AppState) (itemId deptId date ts : String)
    (cell : Cell) (item : InventoryItem)
    (hf : st.items.find? (fun x => x.id = itemId) = some item) :
    quantityOf (handleUpdateInventory st
        [(itemId, [(deptId, cell)])] date ts).items itemId
      = quantityOf st.items itemId + (cell.inQ - cell.outQ) ∧
    (handleUpdateInventory st [(itemId, [(deptId, cell)])] date ts).history.length
      = ((if cell.inQ > 0 then 1 else 0) + (if cell.outQ > 0 then 1 else 0))
          + st.history.length := by
  have hentry : entryLoop st.departments date ts itemId item.name item.image
      [(deptId, cell)] st.nextId
      = entryLoopStep st.departments date ts itemId item.name item.image
          ((0 : Int), ([] : List TransactionRecord), st.nextId) (deptId, cell) := by
    rfl
  unfold handleUpdateInventory
  rw [List.foldl_cons, List.foldl_nil]
  unfold commitStep
  dsimp only
  rw [hf]
  dsimp only
  rw [hentry]
  unfold entryLoopStep
  dsimp only
  constructor
  · unfold quantityOf
    rw [find?_updateFirstById_self st.items itemId (fun it => { it with quantity := it.quantity + (0 + (cell.inQ - cell.outQ)), lastUpdated := ts }) (fun x => rfl)]
    simp [hf]
  · simp only [List.length_append]
    by_cases hin : cell.inQ > 0 <;> by_cases hout : cell.outQ > 0 <;>
      simp [hin, hout]

/-- Witness for C7 (amended) at the sample catalog: a single-cell draft
with `in = −3, out = 0` moves i1's quantity by −3 and creates no
records. -/
theorem C7_witness :
    sampleApp.items.find? (fun x => x.id = "i1") = some sampleItem ∧
    (quantityOf (handleUpdateInventory sampleApp
        [("i1", [("d1", { inQ := -3, outQ := 0 })])] "2024-05-01" "t1").items "i1"
      = quantityOf sampleApp.items "i1" + ((-3 : Int) - 0) ∧
    (handleUpdateInventory sampleApp
        [("i1", [("d1", { inQ := -3, outQ := 0 })])] "2024-05-01" "t1").history.length
      = ((if ((-3 : Int) > 0) then 1 else 0) + (if ((0 : Int) > 0) then 1 else 0))
          + sampleApp.history.length) :=
  ⟨by decide,
   C7_no_validation sampleApp "i1" "d1" "2024-05-01" "t1"
     { inQ := -3, outQ := 0 } sampleItem (by decide)⟩

/-! ### Shared lemmas on the commit fold (used by C1 and C2) -/

theorem entryLoopStep_nc (deps : List Department) (dt ts itemId nm img : String)
    (acc : Int × List TransactionRecord × Nat) (dc : String × Cell) :
    (entryLoopStep deps dt ts itemId nm img acc dc).1
      = acc.1 + (dc.2.inQ - dc.2.outQ) := rfl

theorem entryLoopStep_recs (deps : List Department) (dt ts itemId nm img : String)
    (acc : Int × List TransactionRecord × Nat) (dc : String × Cell) :
    (entryLoopStep deps dt ts itemId nm img acc dc).2.1
      = acc.2.1
        ++ (if dc.2.inQ > 0 then
              [mkRecord acc.2.2 dt ts itemId nm img dc.1
                (match deps.find? (fun x => x.id = dc.1) with
                 | some x => x.name
                 | none => "Unknown Dept") TType.tin dc.2.inQ] else [])
        ++ (if dc.2.outQ > 0 then
              [mkRecord (if dc.2.inQ > 0 then acc.2.2 + 1 else acc.2.2) dt ts itemId
                nm img dc.1
                (match deps.find? (fun x => x.id = dc.1) with
                 | some x => x.name
                 | none => "Unknown Dept") TType.tout dc.2.outQ] else []) := by
  by_cases hin : dc.2.inQ > 0 <;> by_cases hout : dc.2.outQ > 0 <;>
    simp [entryLoopStep, hin, hout]

theorem countDir_append (a b : List TransactionRecord) (i d : String) (ty : TType) :
    countDir (a ++ b) i d ty = countDir a i d ty + countDir b i d ty := by
  simp [countDir, List.filter_append]

theorem countDir_nil (i d : String) (ty : TType) : countDir [] i d ty = 0 := rfl

theorem countDir_single (r : TransactionRecord) (i d : String) (ty : TType) :
    countDir [r] i d ty
      = if r.itemId = i ∧ r.departmentId = d ∧ r.ty = ty then 1 else 0 := by
  by_cases h1 : r.itemId = i
  · by_cases h2 : r.departmentId = d
    · by_cases h3 : r.ty = ty
      · simp [countDir, h1, h2, h3]
      · simp [countDir, h1, h2, h3]
    · simp [countDir, h1, h2]
  · simp [countDir, h1]

theorem sumDelta_append (a b : List TransactionRecord) (i : String) :
    sumDelta (a ++ b) i = sumDelta a i + sumDelta b i := by
  simp [sumDelta, List.filter_append]

theorem sumDelta_nil (i : String) : sumDelta [] i = 0 := rfl

theorem sumDelta_single (r : TransactionRecord) (i : String) :
    sumDelta [r] i = if r.itemId = i then recordDelta r else 0 := by
  by_cases h : r.itemId = i <;> simp [sumDelta, h]

theorem sumInFor_cons (r : TransactionRecord) (rest : List TransactionRecord)
    (i : String) :
    sumInFor (r :: rest) i
      = (if r.itemId = i ∧ r.ty = TType.tin then r.quantity else 0)
        + sumInFor rest i := by
  by_cases h1 : r.itemId = i
  · by_cases h2 : r.ty = TType.tin
    · simp [sumInFor, List.filter_cons, h1, h2]
    · simp [sumInFor, List.filter_cons, h1, h2]
  · simp [sumInFor, List.filter_cons, h1]

theorem sumOutFor_cons (r : TransactionRecord) (rest : List TransactionRecord)
    (i : String) :
    sumOutFor (r :: rest) i
      = (if r.itemId = i ∧ r.ty = TType.tout then r.quantity else 0)
        + sumOutFor rest i := by
  by_cases h1 : r.itemId = i
  · by_cases h2 : r.ty = TType.tout
    · simp [sumOutFor, List.filter_cons, h1, h2]
    · simp [sumOutFor, List.filter_cons, h1, h2]
  · simp [sumOutFor, List.filter_cons, h1]

theorem sumDelta_eq_in_sub_out (recs : List TransactionRecord) (i : String) :
    sumDelta recs i = sumInFor recs i - sumOutFor recs i := by
  induction recs with
  | nil => rfl
  | cons r rest ih =>
      have hc : sumDelta (r :: rest) i
          = (if r.itemId = i then recordDelta r else 0) + sumDelta rest i := by
        by_cases h : r.itemId = i <;> simp [sumDelta, List.filter_cons, h]
      rw [hc, sumInFor_cons, sumOutFor_cons, ih]
      unfold recordDelta
      by_cases h1 : r.itemId = i
      · cases hty : r.ty <;> simp [h1, hty] <;> ring
      · simp [h1]

theorem netOf_cons (dc : String × Cell) (rest : List (String × Cell)) :
    netOf (dc :: rest) = (dc.2.inQ - dc.2.outQ) + netOf rest := by
  simp [netOf]

theorem innerCount_cons (dc : String × Cell) (rest : List (String × Cell))
    (d : String) (ty : TType) :
    innerCount (dc :: rest) d ty
      = (if dc.1 = d ∧ 0 < dirQty ty dc.2 then 1 else 0) + innerCount rest d ty := by
  by_cases h1 : dc.1 = d
  · by_cases h2 : 0 < dirQty ty dc.2 <;>
      simp [innerCount, List.filter_cons, h1, h2, Nat.add_comm]
  · simp [innerCount, List.filter_cons, h1]

theorem lookupKey_of_mem_nodup {α : Type} {m : List (String × α)} {k : String} {v : α}
    (hnd : (m.map Prod.fst).Nodup) (hm : (k, v) ∈ m) : lookupKey m k = some v := by
  induction m with
  | nil => cases hm
  | cons hd tl ih =>
      obtain ⟨k2, w⟩ := hd
      rw [List.map_cons, List.nodup_cons] at hnd
      rcases List.mem_cons.mp hm with h | h
      · cases h
        simp [lookupKey]
      · have hne : ¬ k2 = k := by
          intro he
          apply hnd.1
          rw [he]
          exact List.mem_map.mpr ⟨(k, v), h, rfl⟩
        simp only [lookupKey, if_neg hne]
        exact ih hnd.2 h

theorem sum_if_fst_nodup {α : Type} (m : List (String × α)) (key : String)
    (g : α → Nat) (hnd : (m.map Prod.fst).Nodup) :
    (m.map (fun e => if e.1 = key then g e.2 else 0)).sum
      = (match lookupKey m key with
         | some v => g v
         | none => 0) := by
  induction m with
  | nil => rfl
  | cons hd tl ih =>
      obtain ⟨k2, w⟩ := hd
      rw [List.map_cons, List.nodup_cons] at hnd
      rw [List.map_cons, List.sum_cons]
      by_cases h1 : k2 = key
      · have hz : (tl.map (fun e => if e.1 = key then g e.2 else 0)).sum = 0 := by
          apply List.sum_eq_zero
          intro x hx
          obtain ⟨e, he, hex⟩ := List.mem_map.mp hx
          rw [← hex, if_neg ?hno]
          case hno =>
            intro hek
            apply hnd.1
            rw [h1, ← hek]
            exact List.mem_map.mpr ⟨e, he, rfl⟩
        rw [hz]
        simp [lookupKey, h1]
      · simp only [lookupKey, if_neg h1, if_neg (by simpa using h1)]
        rw [ih hnd.2]
        simp

theorem innerCount_lookup (dts : List (String × Cell)) (d : String) (ty : TType)
    (hnd : (dts.map Prod.fst).Nodup) :
    innerCount dts d ty
      = (match lookupKey dts d with
         | some c => if 0 < dirQty ty c then 1 else 0
         | none => 0) := by
  induction dts with
  | nil => rfl
  | cons dc rest ih =>
      obtain ⟨k2, c⟩ := dc
      rw [List.map_cons, List.nodup_cons] at hnd
      rw [innerCount_cons]
      by_cases h1 : k2 = d
      · have hz : innerCount rest d ty = 0 := by
          unfold innerCount
          rw [List.filter_eq_nil_iff.mpr ?hall]
          · rfl
          case hall =>
            intro a ha
            simp only [Bool.and_eq_true, beq_iff_eq, decide_eq_true_eq, not_and]
            intro had
            exfalso
            apply hnd.1
            rw [h1, ← had]
            exact List.mem_map.mpr ⟨a, ha, rfl⟩
        rw [hz]
        simp [lookupKey, h1]
      · rw [ih hnd.2]
        simp [lookupKey, h1]

theorem exists_id_transfer {a b : List InventoryItem} {x : String}
    (hids : a.map (fun i => i.id) = b.map (fun i => i.id))
    (h : ∃ it ∈ b, it.id = x) : ∃ it ∈ a, it.id = x := by
  obtain ⟨it, hit, hx⟩ := h
  have : it.id ∈ b.map (fun i => i.id) := List.mem_map_of_mem _ hit
  rw [← hids] at this
  obtain ⟨it2, hit2, hx2⟩ := List.mem_map.mp this
  exact ⟨it2, hit2, hx2.trans hx⟩

theorem entryLoop_foldl_nc (deps : List Department) (dt ts itemId nm img : String)
    (dts : List (String × Cell)) (acc : Int × List TransactionRecord × Nat) :
    (dts.foldl (entryLoopStep deps dt ts itemId nm img) acc).1 = acc.1 + netOf dts := by
  induction dts generalizing acc with
  | nil => simp [netOf]
  | cons dc rest ih =>
      rw [List.foldl_cons, ih, entryLoopStep_nc, netOf_cons]
      ring

theorem entryLoopStep_delta (deps : List Department) (dt ts itemId nm img : String)
    (acc : Int × List TransactionRecord × Nat) (dc : String × Cell) (i : String)
    (hdc : 0 ≤ dc.2.inQ ∧ 0 ≤ dc.2.outQ) :
    sumDelta ((entryLoopStep deps dt ts itemId nm img acc dc).2.1) i
      = sumDelta acc.2.1 i + (if itemId = i then dc.2.inQ - dc.2.outQ else 0) := by
  rw [entryLoopStep_recs, sumDelta_append, sumDelta_append]
  by_cases hin : dc.2.inQ > 0 <;> by_cases hout : dc.2.outQ > 0 <;>
    by_cases hi : itemId = i <;>
      simp [hin, hout, hi, sumDelta_single, sumDelta_nil, mkRecord, recordDelta] <;>
        omega

theorem entryLoop_foldl_delta (deps : List Department) (dt ts itemId nm img : String)
    (dts : List (String × Cell)) (acc : Int × List TransactionRecord × Nat) (i : String)
    (hnn : ∀ dc ∈ dts, 0 ≤ dc.2.inQ ∧ 0 ≤ dc.2.outQ) :
    sumDelta ((dts.foldl (entryLoopStep deps dt ts itemId nm img) acc).2.1) i
      = sumDelta acc.2.1 i + (if itemId = i then netOf dts else 0) := by
  induction dts generalizing acc with
  | nil => simp [netOf]
  | cons dc rest ih =>
      rw [List.foldl_cons,
          ih _ (fun dc2 h2 => hnn dc2 (List.mem_cons_of_mem _ h2)),
          entryLoopStep_delta deps dt ts itemId nm img acc dc i (hnn dc (List.mem_cons_self _ _)),
          netOf_cons]
      by_cases hi : itemId = i <;> simp [hi] <;> ring

theorem entryLoopStep_count (deps : List Department) (dt ts itemId nm img : String)
    (acc : Int × List TransactionRecord × Nat) (dc : String × Cell)
    (i d : String) (ty : TType) :
    countDir ((entryLoopStep deps dt ts itemId nm img acc dc).2.1) i d ty
      = countDir acc.2.1 i d ty
        + (if itemId = i ∧ dc.1 = d ∧ 0 < dirQty ty dc.2 then 1 else 0) := by
  rw [entryLoopStep_recs, countDir_append, countDir_append]
  cases ty with
  | tin =>
      by_cases hin : dc.2.inQ > 0 <;> by_cases hout : dc.2.outQ > 0 <;>
        by_cases hi : itemId = i <;> by_cases hd : dc.1 = d <;>
          simp [hin, hout, hi, hd, countDir_single, countDir_nil, mkRecord, dirQty]
  | tout =>
      by_cases hin : dc.2.inQ > 0 <;> by_cases hout : dc.2.outQ > 0 <;>
        by_cases hi : itemId = i <;> by_cases hd : dc.1 = d <;>
          simp [hin, hout, hi, hd, countDir_single, countDir_nil, mkRecord, dirQty]

theorem entryLoop_foldl_count (deps : List Department) (dt ts itemId nm img : String)
    (dts : List (String × Cell)) (acc : Int × List TransactionRecord × Nat)
    (i d : String) (ty : TType) :
    countDir ((dts.foldl (entryLoopStep deps dt ts itemId nm img) acc).2.1) i d ty
      = countDir acc.2.1 i d ty + (if itemId = i then innerCount dts d ty else 0) := by
  induction dts generalizing acc with
  | nil => simp [innerCount]
  | cons dc rest ih =>
      rw [List.foldl_cons, ih, entryLoopStep_count, innerCount_cons]
      by_cases hi : itemId = i <;> by_cases hd : dc.1 = d <;>
        by_cases hq : 0 < dirQty ty dc.2 <;> simp [hi, hd, hq] <;> omega

theorem mem_entryLoop_foldl (deps : List Department) (dt ts itemId nm img : String)
    (dts : List (String × Cell)) (acc : Int × List TransactionRecord × Nat)
    (r : TransactionRecord)
    (hr : r ∈ (dts.foldl (entryLoopStep deps dt ts itemId nm img) acc).2.1) :
    r ∈ acc.2.1 ∨ ∃ dc ∈ dts, r.itemId = itemId ∧ r.date = dt ∧
      r.departmentId = dc.1 ∧
      ((r.ty = TType.tin ∧ r.quantity = dc.2.inQ ∧ 0 < dc.2.inQ) ∨
       (r.ty = TType.tout ∧ r.quantity = dc.2.outQ ∧ 0 < dc.2.outQ)) := by
  induction dts generalizing acc with
  | nil => exact Or.inl hr
  | cons dc rest ih =>
      rw [List.foldl_cons] at hr
      rcases ih _ hr with hacc | ⟨dc2, hdc2, hprops⟩
      · rw [entryLoopStep_recs] at hacc
        rcases List.mem_append.mp hacc with h1 | h2
        · rcases List.mem_append.mp h1 with h0 | hIn
          · exact Or.inl h0
          · right
            refine ⟨dc, (List.mem_cons_self _ _), ?_⟩
            by_cases hin : dc.2.inQ > 0
            · rw [if_pos hin] at hIn
              simp only [List.mem_singleton] at hIn
              subst hIn
              exact ⟨rfl, rfl, rfl, Or.inl ⟨rfl, rfl, hin⟩⟩
            · rw [if_neg hin] at hIn
              cases hIn
        · right
          refine ⟨dc, (List.mem_cons_self _ _), ?_⟩
          by_cases hout : dc.2.outQ > 0
          · rw [if_pos hout] at h2
            simp only [List.mem_singleton] at h2
            subst h2
            exact ⟨rfl, rfl, rfl, Or.inr ⟨rfl, rfl, hout⟩⟩
          · rw [if_neg hout] at h2
            cases h2
      · exact Or.inr ⟨dc2, List.mem_cons_of_mem _ hdc2, hprops⟩

theorem commitStep_recs (deps : List Department) (dt ts : String)
    (acc : List InventoryItem × List TransactionRecord × Nat)
    (e : String × List (String × Cell)) (item : InventoryItem)
    (hf : acc.1.find? (fun x => x.id = e.1) = some item) :
    (commitStep deps dt ts acc e).2.1
      = acc.2.1 ++ (entryLoop deps dt ts e.1 item.name item.image e.2 acc.2.2).2.1 := by
  unfold commitStep
  rw [hf]

theorem commitStep_items (deps : List Department) (dt ts : String)
    (acc : List InventoryItem × List TransactionRecord × Nat)
    (e : String × List (String × Cell)) (item : InventoryItem)
    (hf : acc.1.find? (fun x => x.id = e.1) = some item) :
    (commitStep deps dt ts acc e).1
      = updateFirstById acc.1 e.1 (fun it => { it with quantity := it.quantity + (entryLoop deps dt ts e.1 item.name item.image e.2 acc.2.2).1, lastUpdated := ts }) := by
  unfold commitStep
  rw [hf]

theorem commitStep_count (deps : List Department) (dt ts : String)
    (acc : List InventoryItem × List TransactionRecord × Nat)
    (e : String × List (String × Cell)) (i d : String) (ty : TType)
    (item : InventoryItem)
    (hf : acc.1.find? (fun x => x.id = e.1) = some item) :
    countDir ((commitStep deps dt ts acc e).2.1) i d ty
      = countDir acc.2.1 i d ty + (if e.1 = i then innerCount e.2 d ty else 0) := by
  rw [commitStep_recs deps dt ts acc e item hf, countDir_append]
  unfold entryLoop
  rw [entryLoop_foldl_count]
  simp [countDir_nil]

theorem commitStep_quantity_self (deps : List Department) (dt ts : String)
    (acc : List InventoryItem × List TransactionRecord × Nat)
    (e : String × List (String × Cell)) (item : InventoryItem)
    (hf : acc.1.find? (fun x => x.id = e.1) = some item) :
    quantityOf (commitStep deps dt ts acc e).1 e.1
      = quantityOf acc.1 e.1 + netOf e.2 := by
  rw [commitStep_items deps dt ts acc e item hf]
  unfold quantityOf
  rw [find?_updateFirstById_self acc.1 e.1 (fun it => { it with quantity := it.quantity + (entryLoop deps dt ts e.1 item.name item.image e.2 acc.2.2).1, lastUpdated := ts }) (fun x => rfl)]
  rw [hf]
  simp only [Option.map]
  unfold entryLoop
  rw [entryLoop_foldl_nc]
  simp

theorem commitStep_quantity_ne (deps : List Department) (dt ts : String)
    (acc : List InventoryItem × List TransactionRecord × Nat)
    (e : String × List (String × Cell)) (k : String) (hk : e.1 ≠ k) :
    quantityOf (commitStep deps dt ts acc e).1 k = quantityOf acc.1 k := by
  unfold commitStep
  cases hf : acc.1.find? (fun x => x.id = e.1) with
  | none => rfl
  | some item =>
      dsimp only
      unfold quantityOf
      rw [find?_updateFirstById_ne acc.1 e.1 k (fun it => { it with quantity := it.quantity + (entryLoop deps dt ts e.1 item.name item.image e.2 acc.2.2).1, lastUpdated := ts }) (fun x => rfl) (Ne.symm hk)]

theorem commitStep_delta (deps : List Department) (dt ts : String)
    (acc : List InventoryItem × List TransactionRecord × Nat)
    (e : String × List (String × Cell)) (i : String) (item : InventoryItem)
    (hf : acc.1.find? (fun x => x.id = e.1) = some item)
    (hnn : ∀ dc ∈ e.2, 0 ≤ dc.2.inQ ∧ 0 ≤ dc.2.outQ) :
    sumDelta ((commitStep deps dt ts acc e).2.1) i
      = sumDelta acc.2.1 i + (if e.1 = i then netOf e.2 else 0) := by
  rw [commitStep_recs deps dt ts acc e item hf, sumDelta_append]
  unfold entryLoop
  rw [entryLoop_foldl_delta _ _ _ _ _ _ _ _ _ hnn]
  simp [sumDelta_nil]

theorem commitStep_conserve (deps : List Department) (dt ts : String)
    (acc : List InventoryItem × List TransactionRecord × Nat)
    (e : String × List (String × Cell)) (i : String)
    (hnn : ∀ dc ∈ e.2, 0 ≤ dc.2.inQ ∧ 0 ≤ dc.2.outQ) :
    quantityOf (commitStep deps dt ts acc e).1 i + sumDelta acc.2.1 i
      = quantityOf acc.1 i + sumDelta ((commitStep deps dt ts acc e).2.1) i := by
  cases hf : acc.1.find? (fun x => x.id = e.1) with
  | none => rw [commitStep_skip _ _ _ _ _ hf]
  | some item =>
      rw [commitStep_delta deps dt ts acc e i item hf hnn]
      by_cases hi : e.1 = i
      · rw [if_pos hi, ← hi, commitStep_quantity_self deps dt ts acc e item hf]
        ring
      · rw [if_neg hi, commitStep_quantity_ne deps dt ts acc e i hi]
        ring

theorem find?_id_isSome {l : List InventoryItem} {k : String}
    (h : ∃ it ∈ l, it.id = k) :
    ∃ item, l.find? (fun x => x.id = k) = some item := by
  obtain ⟨it, hit, hid⟩ := h
  have hs : (l.find? (fun x => x.id = k)).isSome := by
    rw [List.find?_isSome]
    exact ⟨it, hit, by simp [hid]⟩
  exact Option.isSome_iff_exists.mp hs

theorem countDir_commit_foldl (deps : List Department) (dt ts : String)
    (m : TransactionMatrix) (acc : List InventoryItem × List TransactionRecord × Nat)
    (i d : String) (ty : TType)
    (hfnd : ∀ e ∈ m, ∃ it ∈ acc.1, it.id = e.1) :
    countDir ((m.foldl (commitStep deps dt ts) acc).2.1) i d ty
      = countDir acc.2.1 i d ty
        + (m.map (fun e => if e.1 = i then innerCount e.2 d ty else 0)).sum := by
  induction m generalizing acc with
  | nil => simp
  | cons e rest ih =>
      rw [List.foldl_cons]
      obtain ⟨item, hf⟩ := find?_id_isSome (hfnd e (List.mem_cons_self _ _))
      have hrest : ∀ e2 ∈ rest, ∃ it ∈ (commitStep deps dt ts acc e).1, it.id = e2.1 :=
        fun e2 he2 =>
          exists_id_transfer (commitStep_map_id deps dt ts acc e)
            (hfnd e2 (List.mem_cons_of_mem _ he2))
      rw [ih _ hrest, commitStep_count deps dt ts acc e i d ty item hf,
        List.map_cons, List.sum_cons]
      omega

theorem foldl_conserve (deps : List Department) (dt ts : String)
    (m : TransactionMatrix) (acc : List InventoryItem × List TransactionRecord × Nat)
    (i : String) (hnn : cellsNN m) :
    quantityOf ((m.foldl (commitStep deps dt ts) acc).1) i + sumDelta acc.2.1 i
      = quantityOf acc.1 i + sumDelta ((m.foldl (commitStep deps dt ts) acc).2.1) i := by
  induction m generalizing acc with
  | nil => rfl
  | cons e rest ih =>
      rw [List.foldl_cons]
      have h1 := commitStep_conserve deps dt ts acc e i
        (fun dc hdc => hnn e (List.mem_cons_self _ _) dc hdc)
      have h2 := ih (commitStep deps dt ts acc e)
        (fun e2 he2 dc hdc => hnn e2 (List.mem_cons_of_mem _ he2) dc hdc)
      omega

theorem quantityOf_foldl_ne (deps : List Department) (dt ts : String)
    (m : TransactionMatrix) (acc : List InventoryItem × List TransactionRecord × Nat)
    (k : String) (hk : ∀ e ∈ m, e.1 ≠ k) :
    quantityOf ((m.foldl (commitStep deps dt ts) acc).1) k = quantityOf acc.1 k := by
  induction m generalizing acc with
  | nil => rfl
  | cons e rest ih =>
      rw [List.foldl_cons, ih _ (fun e2 h2 => hk e2 (List.mem_cons_of_mem _ h2)),
        commitStep_quantity_ne deps dt ts acc e k (hk e (List.mem_cons_self _ _))]

theorem mem_commit_foldl (deps : List Department) (dt ts : String)
    (m : TransactionMatrix) (acc : List InventoryItem × List TransactionRecord × Nat)
    (r : TransactionRecord)
    (hr : r ∈ (m.foldl (commitStep deps dt ts) acc).2.1) :
    r ∈ acc.2.1 ∨ ∃ e ∈ m, ∃ dc ∈ e.2, r.itemId = e.1 ∧ r.date = dt ∧
      r.departmentId = dc.1 ∧
      ((r.ty = TType.tin ∧ r.quantity = dc.2.inQ ∧ 0 < dc.2.inQ) ∨
       (r.ty = TType.tout ∧ r.quantity = dc.2.outQ ∧ 0 < dc.2.outQ)) := by
  induction m generalizing acc with
  | nil => exact Or.inl hr
  | cons e rest ih =>
      rw [List.foldl_cons] at hr
      rcases ih _ hr with hacc | ⟨e2, he2, hprops⟩
      · cases hf : acc.1.find? (fun x => x.id = e.1) with
        | none =>
            rw [commitStep_skip _ _ _ _ _ hf] at hacc
            exact Or.inl hacc
        | some item =>
            rw [commitStep_recs deps dt ts acc e item hf] at hacc
            rcases List.mem_append.mp hacc with h0 | h1
            · exact Or.inl h0
            · right
              unfold entryLoop at h1
              rcases mem_entryLoop_foldl deps dt ts e.1 item.name item.image e.2 _ r h1
                with hbase | ⟨dc, hdc, hprops⟩
              · cases hbase
              · exact ⟨e, List.mem_cons_self _ _, dc, hdc, hprops⟩
      · exact Or.inr ⟨e2, List.mem_cons_of_mem _ he2, hprops⟩

/-! ### C2 — commit record granularity -/

/-- C2: for a well-formed draft matrix (unique keys, non-negative cells,
as the UI constructs it) whose items are all in the catalog, commit
appends exactly one ledger record per (item, department, direction)
triple with nonzero draft quantity — a cell with both nonzero in and out
yields two records — no record for any zero triple, and every appended
record carries the committed date and exactly the draft amount of its own
triple. -/
theorem C2_commit_record_granularity (st : AppState) (m : TransactionMatrix)
    (date ts : String)
    (hkeys : (m.map Prod.fst).Nodup)
    (hinner : ∀ e ∈ m, (e.2.map Prod.fst).Nodup)
    (hnn : cellsNN m)
    (hfound : ∀ e ∈ m, ∃ it ∈ st.items, it.id = e.1) :
    ∃ newRecs,
      (handleUpdateInventory st m date ts).history = newRecs ++ st.history ∧
      (∀ i d ty, countDir newRecs i d ty
          = if dirQty ty (getCell m i d) ≠ 0 then 1 else 0) ∧
      (∀ r ∈ newRecs, r.date = date ∧ 0 < r.quantity ∧
        r.quantity = dirQty r.ty (getCell m r.itemId r.departmentId)) := by
  refine ⟨(m.foldl (commitStep st.departments date ts) (st.items, [], st.nextId)).2.1,
    rfl, ?_, ?_⟩
  · intro i d ty
    have hcount := countDir_commit_foldl st.departments date ts m
      (st.items, [], st.nextId) i d ty hfound
    rw [hcount, sum_if_fst_nodup m i (fun dts => innerCount dts d ty) hkeys]
    cases hlk : lookupKey m i with
    | none =>
        have hg : getCell m i d = { inQ := 0, outQ := 0 } := by
          unfold getCell
          rw [hlk]
          rfl
        rw [hg]
        cases ty <;> simp [countDir_nil, dirQty]
    | some dts =>
        dsimp only
        rw [innerCount_lookup dts d ty (hinner (i, dts) (lookupKey_mem hlk))]
        cases hlk2 : lookupKey dts d with
        | none =>
            have hg : getCell m i d = { inQ := 0, outQ := 0 } := by
              unfold getCell
              rw [hlk]
              simp only [Option.getD_some]
              rw [hlk2]
              rfl
            rw [hg]
            cases ty <;> simp [countDir_nil, dirQty]
        | some c =>
            have hg : getCell m i d = c := by
              unfold getCell
              rw [hlk]
              simp only [Option.getD_some]
              rw [hlk2]
              rfl
            have hcn := hnn (i, dts) (lookupKey_mem hlk) (d, c) (lookupKey_mem hlk2)
            rw [hg]
            have hposn : 0 ≤ dirQty ty c := by
              cases ty
              · exact hcn.1
              · exact hcn.2
            dsimp only
            by_cases h : 0 < dirQty ty c
            · rw [if_pos h, if_pos (show dirQty ty c ≠ 0 by omega)]
              simp [countDir_nil]
            · rw [if_neg h, if_neg ?hz]
              · simp [countDir_nil]
              case hz =>
                simp only [ne_eq, Decidable.not_not]
                omega
  · intro r hr
    rcases mem_commit_foldl st.departments date ts m (st.items, [], st.nextId) r hr
      with h0 | ⟨e, he, dc, hdc, hii, hdd, hdep, hdisj⟩
    · cases h0
    · have hem : (e.1, e.2) ∈ m := by simpa using he
      have hdm : (dc.1, dc.2) ∈ e.2 := by simpa using hdc
      have hlk : lookupKey m e.1 = some e.2 := lookupKey_of_mem_nodup hkeys hem
      have hlk2 : lookupKey e.2 dc.1 = some dc.2 :=
        lookupKey_of_mem_nodup (hinner e he) hdm
      have hg : getCell m r.itemId r.departmentId = dc.2 := by
        rw [hii, hdep]
        unfold getCell
        rw [hlk]
        simp only [Option.getD_some]
        rw [hlk2]
        rfl
      refine ⟨hdd, ?_, ?_⟩
      · rcases hdisj with ⟨-, hq, hpos⟩ | ⟨-, hq, hpos⟩ <;> omega
      · rw [hg]
        rcases hdisj with ⟨hty, hq, -⟩ | ⟨hty, hq, -⟩ <;> rw [hty] <;>
          simpa [dirQty] using hq

/-- Witness for C2: committing the draft `{i1: {d1: {in:3, out:1}}}` on
the sample catalog. -/
theorem C2_witness :
    (([("i1", [("d1", { inQ := 3, outQ := 1 })])] : TransactionMatrix).map
        Prod.fst).Nodup ∧
    cellsNN [("i1", [("d1", { inQ := 3, outQ := 1 })])] ∧
    (∃ newRecs,
      (handleUpdateInventory sampleApp [("i1", [("d1", { inQ := 3, outQ := 1 })])]
          "2024-05-01" "t1").history = newRecs ++ sampleApp.history ∧
      (∀ i d ty, countDir newRecs i d ty
          = if dirQty ty (getCell [("i1", [("d1", { inQ := 3, outQ := 1 })])] i d) ≠ 0
            then 1 else 0) ∧
      (∀ r ∈ newRecs, r.date = "2024-05-01" ∧ 0 < r.quantity ∧
        r.quantity = dirQty r.ty
          (getCell [("i1", [("d1", { inQ := 3, outQ := 1 })])] r.itemId
            r.departmentId))) :=
  ⟨by decide, by decide,
   C2_commit_record_granularity sampleApp [("i1", [("d1", { inQ := 3, outQ := 1 })])]
     "2024-05-01" "t1" (by decide) (by decide) (by decide) (by decide)⟩

/-! ### C1 — conservation of quantity at commit -/

theorem handleUpdateInventory_conserve (st : AppState) (m : TransactionMatrix)
    (d t : String) (hnn : cellsNN m) :
    ∃ recs, (handleUpdateInventory st m d t).history = recs ++ st.history ∧
      ∀ i, quantityOf (handleUpdateInventory st m d t).items i
        = quantityOf st.items i + sumDelta recs i := by
  refine ⟨(m.foldl (commitStep st.departments d t) (st.items, [], st.nextId)).2.1,
    rfl, ?_⟩
  intro i
  have h := foldl_conserve st.departments d t m (st.items, [], st.nextId) i hnn
  dsimp only at h
  rw [sumDelta_nil] at h
  show quantityOf ((m.foldl (commitStep st.departments d t)
      (st.items, [], st.nextId)).1) i = _
  omega

theorem applyCommits_conserve (st : AppState)
    (cs : List (TransactionMatrix × String × String))
    (hnn : ∀ c ∈ cs, cellsNN c.1) :
    ∃ newRecs, (applyCommits st cs).history = newRecs ++ st.history ∧
      ∀ i, quantityOf (applyCommits st cs).items i
        = quantityOf st.items i + sumDelta newRecs i := by
  induction cs generalizing st with
  | nil =>
      exact ⟨[], by simp [applyCommits], fun i => by simp [applyCommits, sumDelta_nil]⟩
  | cons c rest ih =>
      obtain ⟨r1, h1, hq1⟩ := handleUpdateInventory_conserve st c.1 c.2.1 c.2.2
        (hnn c (List.mem_cons_self _ _))
      obtain ⟨r2, h2, hq2⟩ := ih (handleUpdateInventory st c.1 c.2.1 c.2.2)
        (fun c2 hc2 => hnn c2 (List.mem_cons_of_mem _ hc2))
      refine ⟨r2 ++ r1, ?_, ?_⟩
      · show (applyCommits (handleUpdateInventory st c.1 c.2.1 c.2.2) rest).history = _
        rw [h2, h1, List.append_assoc]
      · intro i
        show quantityOf (applyCommits (handleUpdateInventory st c.1 c.2.1 c.2.2)
          rest).items i = _
        rw [hq2 i, hq1 i, sumDelta_append]
        ring

/-- C1: (a) over any sequence of commits of well-formed draft matrices,
each item's final quantity is its initial quantity plus the sum of the
committed 'in' amounts minus the sum of the committed 'out' amounts of
the records those commits appended; (b) a single commit applies the net
change `Σ(in) − Σ(out)` of an item's department entries to that item's
quantity exactly once per item entry (not once per record). -/
theorem C1_conservation (st : AppState)
    (cs : List (TransactionMatrix × String × String))
    (hnn : ∀ c ∈ cs, cellsNN c.1) :
    (∃ newRecs, (applyCommits st cs).history = newRecs ++ st.history ∧
      ∀ i, quantityOf (applyCommits st cs).items i
        = quantityOf st.items i + (sumInFor newRecs i - sumOutFor newRecs i)) ∧
    (∀ (m : TransactionMatrix) (d t k : String) (dts : List (String × Cell)),
      (m.map Prod.fst).Nodup → (k, dts) ∈ m → (∃ it ∈ st.items, it.id = k) →
      quantityOf (handleUpdateInventory st m d t).items k
        = quantityOf st.items k + netOf dts) := by
  constructor
  · obtain ⟨newRecs, h1, h2⟩ := applyCommits_conserve st cs hnn
    exact ⟨newRecs, h1, fun i => by rw [h2 i, sumDelta_eq_in_sub_out]⟩
  · intro m d t k dts hkeys hmem hex
    obtain ⟨l1, l2, hsplit⟩ := List.append_of_mem hmem
    subst hsplit
    have hmap : ((l1 ++ (k, dts) :: l2).map Prod.fst)
        = l1.map Prod.fst ++ k :: l2.map Prod.fst := by simp
    rw [hmap, List.nodup_append] at hkeys
    have hk1 : ∀ e ∈ l1, e.1 ≠ k := by
      intro e he hek
      exact hkeys.2.2 (List.mem_map.mpr ⟨e, he, rfl⟩) (hek ▸ List.mem_cons_self _ _)
    have hk2 : ∀ e ∈ l2, e.1 ≠ k := by
      intro e he hek
      have := (List.nodup_cons.mp hkeys.2.1).1
      exact this (hek ▸ List.mem_map.mpr ⟨e, he, rfl⟩)
    unfold handleUpdateInventory
    dsimp only
    rw [List.foldl_append, List.foldl_cons]
    rw [quantityOf_foldl_ne st.departments d t l2 _ k hk2]
    obtain ⟨item, hfit⟩ := find?_id_isSome
      (exists_id_transfer
        (foldl_commitStep_map_id st.departments d t l1 (st.items, [], st.nextId)) hex)
    have hself := commitStep_quantity_self st.departments d t
      (l1.foldl (commitStep st.departments d t) (st.items, [], st.nextId))
      (k, dts) item hfit
    rw [hself, quantityOf_foldl_ne st.departments d t l1 _ k hk1]

/-- Witness for C1: two successive commits on the sample catalog
(in=3/out=1 on (i1,d1), then out=2 on (i1,d2)). -/
theorem C1_witness :
    (∀ c ∈ ([([("i1", [("d1", { inQ := 3, outQ := 1 })])], "2024-05-01", "t1"),
             ([("i1", [("d2", { inQ := 0, outQ := 2 })])], "2024-05-02", "t2")] :
        List (TransactionMatrix × String × String)), cellsNN c.1) ∧
    ((∃ newRecs,
      (applyCommits sampleApp
          [([("i1", [("d1", { inQ := 3, outQ := 1 })])], "2024-05-01", "t1"),
           ([("i1", [("d2", { inQ := 0, outQ := 2 })])], "2024-05-02", "t2")]).history
        = newRecs ++ sampleApp.history ∧
      ∀ i, quantityOf (applyCommits sampleApp
          [([("i1", [("d1", { inQ := 3, outQ := 1 })])], "2024-05-01", "t1"),
           ([("i1", [("d2", { inQ := 0, outQ := 2 })])], "2024-05-02", "t2")]).items i
        = quantityOf sampleApp.items i
          + (sumInFor newRecs i - sumOutFor newRecs i)) ∧
    (∀ (m : TransactionMatrix) (d t k : String) (dts : List (String × Cell)),
      (m.map Prod.fst).Nodup → (k, dts) ∈ m →
      (∃ it ∈ sampleApp.items, it.id = k) →
      quantityOf (handleUpdateInventory sampleApp m d t).items k
        = quantityOf sampleApp.items k + netOf dts)) :=
  ⟨by decide,
   C1_conservation sampleApp
     [([("i1", [("d1", { inQ := 3, outQ := 1 })])], "2024-05-01", "t1"),
      ([("i1", [("d2", { inQ := 0, outQ := 2 })])], "2024-05-02", "t2")]
     (by decide)⟩

end Josiah
